import Mathlib

/-!
# mini-gateway: load-balancer factory, gin router setup and regex dispatch, cache capture

A shallow embedding of

* `internal/core/loadbalancer/factory.go` (`NewLoadBalancer`, `buildWeightedRoundRobinRules`),
* `internal/core/routing/router/gin.go` (`GinRouter.Setup`, `GinRouter.handleRegexMatch`),
* `internal/middleware/cache.go` (`responseWriter.Write` and the capture branch of
  `CacheMiddleware`),

followed by the theorems about them.

Conventions.  A Go `map` is a list of key/value pairs with distinct keys, given in the order
in which `range` visits it.  A Go value that may be `nil` is an `Option`; the configuration
pointer handed to the code is not nil.  A Go function value whose body lives in another
package is a parameter of the definitions that call it.  A run-time panic is the result `none`.

Libraries.  The code calls into gin, `regexp` and `bytes`, which are not part of the
repository.  Of gin the development keeps what the router relies on: a handler acts on the
context; a registered chain runs in order and stops once the context is aborted; `Any` either
registers a chain under a path or panics; a request is handed to the chain of the route it
resolves to, or answered with a redirect, or handed to the `NoRoute` handler if there is one,
and gets gin's plain-text 404 if nothing has been written.  Which paths `Any` accepts and how
a request resolves is the behaviour of gin's route tree: it is a parameter of the router, and
the general theorems hold for every such behaviour; concrete requests are evaluated with an
instance that follows gin on routes registered through `Any`.  Package `regexp` is a parameter
of the router as well; where the meaning of a pattern matters, a fragment of its pattern
language is modelled, with a reader of pattern text and a matcher that is proved to compute
the meaning of an expression.  Of `bytes.Buffer` the development keeps `Write` and `String`,
including the result of `String` on a nil pointer.
-/

namespace MiniGateway

/-! ## Configuration (package `config`, only the fields the embedded code reads) -/

/-- The type `config.RoutingRule`: one target of a route. -/
structure RoutingRule where
  Target : String
  Weight : Int
  IsRegex : Bool
  Middlewares : List String
deriving DecidableEq, Repr

/-- The type `config.RoutingRules`: the rules configured for one path. -/
abbrev RoutingRules := List RoutingRule

/-- The type `config.Config`.  `httpRules` is what `cfg.Routing.GetHTTPRules()` returns, listed
in the order in which `range` visits the map. -/
structure Config where
  httpRules : List (String × RoutingRules)
  Engine : String
  routingPrefix : String
  consulAddr : String
deriving DecidableEq, Repr

/-! ## Load-balancer factory (`factory.go`) -/

/-- The type `TargetWeight` of package `loadbalancer`. -/
structure TargetWeight where
  Target : String
  Weight : Int
deriving DecidableEq, Repr

/-- Assignment `m[k] = v` on a Go map kept as an association list. -/
def mapSet {β : Type} (m : List (String × β)) (k : String) (v : β) : List (String × β) :=
  if m.any (fun kv => kv.1 == k) then
    m.map (fun kv => if kv.1 == k then (k, v) else kv)
  else
    m ++ [(k, v)]

/-- The function `buildWeightedRoundRobinRules`.  `pathJoin` stands for `path.Join` of the Go
standard library. -/
def buildWeightedRoundRobinRules (pathJoin : String → String → String) (cfg : Config) :
    List (String × List TargetWeight) :=
  cfg.httpRules.foldl
    (fun rules entry =>
      let joined := pathJoin cfg.routingPrefix entry.1
      let fullPath := if joined.startsWith "/" then joined else "/" ++ joined
      mapSet rules fullPath (entry.2.map fun rule => ⟨rule.Target, rule.Weight⟩))
    []

/-- The balancer constructors `NewLoadBalancer` calls; their bodies are in other files of
package `loadbalancer`.  `NewConsulBalancer` is the only one that can return an error. -/
structure Constructors (LB : Type) where
  NewRoundRobin : LB
  NewKetama : Nat → LB
  NewConsulBalancer : String → Option LB × Option String
  NewWeightedRoundRobin : List (String × List TargetWeight) → LB

/-- The function `NewLoadBalancer`.  The result is the Go pair `(LoadBalancer, error)`; `none`
is `nil`, and an error is represented by its message. -/
def NewLoadBalancer {LB : Type} (k : Constructors LB) (pathJoin : String → String → String)
    (algorithm : String) (cfg : Config) : Option LB × Option String :=
  if algorithm = "round-robin" ∨ algorithm = "round_robin" then
    (some k.NewRoundRobin, none)
  else if algorithm = "ketama" then
    (some (k.NewKetama 160), none)
  else if algorithm = "consul" then
    k.NewConsulBalancer cfg.consulAddr
  else if algorithm = "weighted-round-robin" ∨ algorithm = "weighted_round_robin" then
    (some (k.NewWeightedRoundRobin (buildWeightedRoundRobinRules pathJoin cfg)), none)
  else
    (none, some ("unknown load balancer algorithm: " ++ algorithm))

/-! ## The gin context and handlers (package `gin`, as far as the router uses it) -/

/-- What has been written to the response: the JSON rendering of `gin.H` with one numeric
field (`c.JSON`), a plain-text body (gin's own not-found answer), or a redirect to another
path (gin's answer to a path that differs from a route by a trailing slash). -/
inductive Output where
  | json (status : Nat) (key : String) (value : Nat)
  | text (status : Nat) (body : String)
  | redirect (status : Nat) (location : String)
deriving DecidableEq, Repr

/-- The part of `gin.Context` the router reads and writes: the request path
(`c.Request.URL.Path`) and method (`c.Request.Method`), the abort flag (`c.IsAborted()`), the
responses written so far, and `store` for everything else a handler may read or change. -/
structure Context (σ : Type) where
  requestPath : String
  method : String
  aborted : Bool
  written : List Output
  store : σ
deriving DecidableEq, Repr

/-- The type `gin.HandlerFunc`: a handler acts on the context. -/
abbrev HandlerFunc (σ : Type) := Context σ → Context σ

/-- The call `c.JSON(code, gin.H{key: value})`. -/
def Context.JSON {σ : Type} (c : Context σ) (code : Nat) (key : String) (value : Nat) :
    Context σ :=
  { c with written := c.written ++ [Output.json code key value] }

/-- The constant `http.StatusNotFound`. -/
def StatusNotFound : Nat := 404

/-- A handler invocation, recorded to state which handlers ran and in which order. -/
inductive Call where
  | middleware (name : String)
  | proxy (targetRules : RoutingRules)
deriving DecidableEq, Repr

/-- A handler in a chain registered with gin, with the label under which its invocation is
recorded. -/
structure ChainHandler (σ : Type) where
  label : Call
  run : HandlerFunc σ

/-- How gin runs a registered chain (`Context.Next`): the handlers in order, none once the
context is aborted. -/
def runChain {σ : Type} : List (ChainHandler σ) → Context σ → Context σ × List Call
  | [], c => (c, [])
  | h :: rest, c =>
    if c.aborted then (c, [])
    else
      let out := runChain rest (h.run c)
      (out.1, h.label :: out.2)

/-- What gin does with a request, given the paths registered with `Any`: it hands the
request to the route registered under one of them, it answers with a redirect (the path
differs from a route by a trailing slash), or it finds nothing. -/
inductive Resolution where
  | route (registered : String)
  | redirect (status : Nat) (location : String)
  | miss
deriving DecidableEq, Repr

/-- The behaviour of gin's route tree, as a parameter: `accepts registered path n` says
whether `Any(path, ...)` with `n` handlers returns, rather than panics, when the paths
`registered` have been registered before; `resolve registered method path` is what gin does
with a request. -/
structure Gin where
  accepts : List String → String → Nat → Bool
  resolve : List String → String → String → Resolution

/-- The `gin.IRouter` handed to `Setup`: whether it is the `*gin.Engine`, the registrations
made with `Any` in order, and the handler installed with `NoRoute`. -/
structure IRouter (σ : Type) where
  isEngine : Bool
  routes : List (String × List (ChainHandler σ))
  noRoute : Option (Context σ → Context σ × List Call)

/-- The paths registered so far. -/
def IRouter.paths {σ : Type} (r : IRouter σ) : List String := r.routes.map Prod.fst

/-- The call `r.Any(path, handlers...)`; `none` when gin panics. -/
def IRouter.Any {σ : Type} (gin : Gin) (r : IRouter σ) (path : String)
    (handlers : List (ChainHandler σ)) : Option (IRouter σ) :=
  if gin.accepts r.paths path handlers.length then
    some { r with routes := r.routes ++ [(path, handlers)] }
  else none

/-- The handler chain registered under a path. -/
def IRouter.lookup {σ : Type} (r : IRouter σ) (path : String) : Option (List (ChainHandler σ)) :=
  (r.routes.find? (fun kv => kv.1 == path)).map (fun kv => kv.2)

/-- The body gin writes when no route matched and no handler wrote a response. -/
def default404Body : String := "404 page not found"

/-- How gin serves a request (`handleHTTPRequest`, `serveError`): the chain of the route the
request resolves to; a redirect; otherwise the `NoRoute` handler if one is installed, and
gin's plain-text 404 when nothing has been written. -/
def serve {σ : Type} (gin : Gin) (r : IRouter σ) (c : Context σ) : Context σ × List Call :=
  match gin.resolve r.paths c.method c.requestPath with
  | .route registered =>
    match r.lookup registered with
    | some chain => runChain chain c
    | none => (c, [])
  | .redirect status location =>
    ({ c with written := c.written ++ [Output.redirect status location] }, [])
  | .miss =>
    let out := match r.noRoute with
      | some h => h c
      | none => (c, [])
    if out.1.written = [] then
      ({ out.1 with written := [Output.text StatusNotFound default404Body] }, out.2)
    else out

/-! ### gin's route tree on concrete paths

The theorems below hold for every behaviour of gin's route tree.  For concrete requests the
following instance is used.  It covers what gin does with routes registered through `Any`
when no two of them conflict: the nine methods of `Any`, the checks `Any` makes on a single
path (leading `/`, named wildcards `:name` and `*name`, a catch-all only at the end and after
a `/`, no path twice, fewer than 63 handlers), matching of a request path against static and
wildcard routes, and the redirect for a path that differs from a route by a trailing slash.
Conflicts between different wildcard routes, on which gin panics as well, are outside it. -/

/-- The variable `anyMethods` of gin: the methods for which `Any` registers a route. -/
def anyMethods : List String :=
  ["GET", "POST", "PUT", "PATCH", "HEAD", "OPTIONS", "DELETE", "CONNECT", "TRACE"]

/-- Whether every wildcard of a path is well formed for gin: `wild` is `none` outside a
wildcard and otherwise tells whether it is a catch-all and how long its name is so far;
`prev` is the character before. -/
def wildcardsNamed : Option (Bool × Nat) → Char → List Char → Bool
  | none, _, [] => true
  | some (_, n), _, [] => decide (1 ≤ n)
  | none, prev, c :: cs =>
    if c = ':' then wildcardsNamed (some (false, 0)) c cs
    else if c = '*' then decide (prev = '/') && wildcardsNamed (some (true, 0)) c cs
    else wildcardsNamed none c cs
  | some (catchAll, n), _, c :: cs =>
    if c = '/' then !catchAll && decide (1 ≤ n) && wildcardsNamed none c cs
    else if c = ':' ∨ c = '*' then false
    else wildcardsNamed (some (catchAll, n + 1)) c cs

/-- Whether `Any` returns for a path. -/
def ginAccepts (registered : List String) (path : String) (handlers : Nat) : Bool :=
  decide (path.data.head? = some '/') && wildcardsNamed none ' ' path.data &&
    !registered.contains path && decide (handlers < 63)

/-- Whether a route pattern matches a request path: a static character matches itself,
`:name` a non-empty run of characters up to the next `/`, `*name` the rest of the path. -/
def patternMatches : Nat → List Char → List Char → Bool
  | 0, _, _ => false
  | _ + 1, [], [] => true
  | _ + 1, [], _ :: _ => false
  | fuel + 1, p :: ps, cs =>
    if p = '*' then true
    else if p = ':' then
      !(cs.takeWhile (fun c => c != '/')).isEmpty &&
        patternMatches fuel (ps.dropWhile (fun c => c != '/')) (cs.dropWhile (fun c => c != '/'))
    else
      match cs with
      | [] => false
      | c :: rest => p == c && patternMatches fuel ps rest

/-- The route gin finds for a path: the one registered under the path itself, otherwise the
first whose pattern matches. -/
def findRoute (registered : List String) (path : String) : Option String :=
  if registered.contains path then some path
  else registered.find? fun pattern =>
    patternMatches (pattern.length + path.length + 1) pattern.data path.data

/-- The path with its trailing slash removed, or added when it has none. -/
def toggleSlash (path : String) : String :=
  if path.data.getLast? = some '/' then String.mk path.data.dropLast else path ++ "/"

/-- What gin does with a request. -/
def ginResolve (registered : List String) (method path : String) : Resolution :=
  if anyMethods.contains method then
    match findRoute registered path with
    | some route => .route route
    | none =>
      if method != "CONNECT" && path != "/" then
        match findRoute registered (toggleSlash path) with
        | some _ => .redirect (if method == "GET" then 301 else 307) (toggleSlash path)
        | none => .miss
      else .miss
  else .miss

/-- The route tree of gin on concrete paths. -/
def ginTree : Gin := ⟨ginAccepts, ginResolve⟩

/-! ## Regular expressions (Go package `regexp`, as a parameter) -/

/-- The two functions of package `regexp` the router calls: `Compile` (`none` is a compile
error) and `(*Regexp).MatchString`. -/
structure Regexp (R : Type) where
  Compile : String → Option R
  MatchString : R → String → Bool

/-! ## The router (`gin.go`) -/

/-- The type `regexRouteEntry`. -/
structure regexRouteEntry (R : Type) where
  Pattern : R
  TargetRules : RoutingRules
deriving DecidableEq, Repr

/-- The type `GinRouter`. -/
structure GinRouter (R : Type) where
  regexRoutes : List (regexRouteEntry R)
deriving DecidableEq, Repr

/-- The function `NewGinRouter`. -/
def NewGinRouter (R : Type) : GinRouter R := ⟨[]⟩

/-- The middleware loop of `handleRegexMatch` (source lines 107 to 118): each configured name
found in the registry is called; the loop stops, reporting `true`, as soon as the context is
aborted after a call. -/
def runMiddlewares {σ : Type} (mwRegistry : String → Option (HandlerFunc σ)) :
    List String → Context σ → Context σ × List Call × Bool
  | [], c => (c, [], false)
  | name :: rest, c =>
    match mwRegistry name with
    | some mwFunc =>
      let c1 := mwFunc c
      if c1.aborted then (c1, [Call.middleware name], true)
      else
        let out := runMiddlewares mwRegistry rest c1
        (out.1, Call.middleware name :: out.2.1, out.2.2)
    | none => runMiddlewares mwRegistry rest c

/-- The body of `handleRegexMatch` for the entry that matched (source lines 104 to 125). -/
def dispatchEntry {σ R : Type} (CreateHTTPHandler : RoutingRules → HandlerFunc σ)
    (mwRegistry : String → Option (HandlerFunc σ)) (entry : regexRouteEntry R)
    (c : Context σ) : Context σ × List Call :=
  let targetRules := entry.TargetRules
  let out := match targetRules with
    | first :: _ => runMiddlewares mwRegistry first.Middlewares c
    | [] => (c, [], false)
  if out.2.2 then (out.1, out.2.1)
  else (CreateHTTPHandler targetRules out.1, out.2.1 ++ [Call.proxy targetRules])

/-- The scan of `handleRegexMatch` over the entries that remain. -/
def scanRegexRoutes {σ R : Type} (re : Regexp R)
    (CreateHTTPHandler : RoutingRules → HandlerFunc σ)
    (mwRegistry : String → Option (HandlerFunc σ)) (requestPath : String) :
    List (regexRouteEntry R) → Context σ → Context σ × List Call
  | [], c => (c.JSON StatusNotFound "error" StatusNotFound, [])
  | entry :: rest, c =>
    if re.MatchString entry.Pattern requestPath then
      dispatchEntry CreateHTTPHandler mwRegistry entry c
    else scanRegexRoutes re CreateHTTPHandler mwRegistry requestPath rest c

/-- The method `GinRouter.handleRegexMatch`. -/
def handleRegexMatch {σ R : Type} (re : Regexp R) (gr : GinRouter R)
    (CreateHTTPHandler : RoutingRules → HandlerFunc σ)
    (mwRegistry : String → Option (HandlerFunc σ)) (c : Context σ) : Context σ × List Call :=
  let requestPath := c.requestPath
  scanRegexRoutes re CreateHTTPHandler mwRegistry requestPath gr.regexRoutes c

/-- The handler slice `Setup` builds for an exact route (source lines 63 to 82). -/
def routeHandlers {σ : Type} (CreateHTTPHandler : RoutingRules → HandlerFunc σ)
    (mwRegistry : String → Option (HandlerFunc σ)) (targetRules : RoutingRules) :
    List (ChainHandler σ) :=
  let handlers := match targetRules with
    | first :: _ =>
      first.Middlewares.filterMap fun name =>
        (mwRegistry name).map fun mwFunc => ⟨Call.middleware name, mwFunc⟩
    | [] => []
  handlers ++ [⟨Call.proxy targetRules, CreateHTTPHandler targetRules⟩]

/-- One iteration of the loop of `Setup` (source lines 43 to 87).  `none` is a run-time panic:
that of `targetRules[0]` on an empty rule list, or that of `r.Any` on a path gin rejects. -/
def setupRoute {σ R : Type} (gin : Gin) (re : Regexp R)
    (CreateHTTPHandler : RoutingRules → HandlerFunc σ)
    (mode : String) (mwRegistry : String → Option (HandlerFunc σ))
    (state : GinRouter R × IRouter σ) (entry : String × RoutingRules) :
    Option (GinRouter R × IRouter σ) :=
  let path := entry.1
  let targetRules := entry.2
  match targetRules with
  | [] => none
  | first :: _ =>
    let isRegex := first.IsRegex
    if isRegex && mode == "regex" then
      let pattern := "^" ++ path ++ "$"
      match re.Compile pattern with
      | none => some state
      | some compiled =>
        some ({ regexRoutes := state.1.regexRoutes ++ [⟨compiled, targetRules⟩] }, state.2)
    else
      match state.2.Any gin path (routeHandlers CreateHTTPHandler mwRegistry targetRules) with
      | none => none
      | some r1 => some (state.1, r1)

/-- The loop of `Setup` over the rule map in the order `range` visits it. -/
def setupRoutes {σ R : Type} (gin : Gin) (re : Regexp R)
    (CreateHTTPHandler : RoutingRules → HandlerFunc σ)
    (mode : String) (mwRegistry : String → Option (HandlerFunc σ)) :
    List (String × RoutingRules) → GinRouter R × IRouter σ → Option (GinRouter R × IRouter σ)
  | [], state => some state
  | entry :: rest, state =>
    match setupRoute gin re CreateHTTPHandler mode mwRegistry state entry with
    | none => none
    | some next => setupRoutes gin re CreateHTTPHandler mode mwRegistry rest next

/-- The method `GinRouter.Setup`: the router and the gin router after the call, `none` when
the call panics. -/
def Setup {σ R : Type} (gin : Gin) (re : Regexp R) (gr : GinRouter R) (r : IRouter σ)
    (CreateHTTPHandler : RoutingRules → HandlerFunc σ) (cfg : Config)
    (mwRegistry : String → Option (HandlerFunc σ)) : Option (GinRouter R × IRouter σ) :=
  let rules := cfg.httpRules
  if rules.length = 0 then some (gr, r)
  else
    let mode := cfg.Engine
    match setupRoutes gin re CreateHTTPHandler mode mwRegistry rules (gr, r) with
    | none => none
    | some (gr1, r1) =>
      if gr1.regexRoutes.length > 0 then
        if r1.isEngine then
          let fallback := handleRegexMatch re gr1 CreateHTTPHandler mwRegistry
          some (gr1, { r1 with noRoute := some fallback })
        else some (gr1, r1)
      else some (gr1, r1)

/-! ## A fragment of Go's regular expressions (package `regexp`, RE2 pattern language)

The router only hands pattern text to `regexp.Compile` and paths to `MatchString`.  To state
what the anchoring of `Setup` achieves, the part of the pattern language below is modelled:
literal characters, `.`, classes `[a-z0-9]` and `[^...]` of single characters and ranges,
groups `( )`, alternation `|`, the repetitions `*`, `+`, `?`, the anchors `^` and `$`, and a
backslash before an ASCII character that is not alphanumeric.  `compile` answers `none` for
every other pattern text, whether Go rejects it or it merely lies outside the fragment; the
results below only use patterns on which it answers `some`.  As in Go without flags, `^` and
`$` hold at the two ends of the text only, and `.` does not match a newline. -/

/-- Regular expressions of the fragment.  `grp` is a parenthesised group, `bol` and `eol` are
`^` and `$`. -/
inductive Regex where
  | empty
  | lit (c : Char)
  | any
  | cls (negated : Bool) (ranges : List (Char × Char))
  | bol
  | eol
  | cat (a b : Regex)
  | alt (a b : Regex)
  | grp (a : Regex)
  | star (a : Regex)
  | plus (a : Regex)
  | opt (a : Regex)
deriving DecidableEq, Repr

/-- The positions reached from `start` by at most `n` rounds of `f`. -/
def reach (f : Nat → List Nat) : Nat → List Nat → List Nat
  | 0, start => start
  | n + 1, start => reach f n (start ++ (start.flatMap f).filter (fun j => !start.contains j))

/-- Whether a character lies in one of the ranges of a class. -/
def inRanges (c : Char) (ranges : List (Char × Char)) : Bool :=
  ranges.any fun lohi => decide (lohi.1.toNat ≤ c.toNat) && decide (c.toNat ≤ lohi.2.toNat)

/-- The positions `j` such that the expression matches the text `s` from position `i` up to
`j`.  A repetition is closed under at most `s.length + 1` rounds, which reaches every position
of the text that can be reached at all. -/
def Regex.ends : Regex → List Char → Nat → List Nat
  | .empty, _, i => [i]
  | .lit c, s, i => if s.get? i = some c then [i + 1] else []
  | .any, s, i =>
    match s.get? i with
    | some d => if d = '\n' then [] else [i + 1]
    | none => []
  | .cls negated ranges, s, i =>
    match s.get? i with
    | some d => if inRanges d ranges != negated then [i + 1] else []
    | none => []
  | .bol, _, i => if i = 0 then [i] else []
  | .eol, s, i => if i = s.length then [i] else []
  | .cat a b, s, i => (a.ends s i).flatMap (b.ends s)
  | .alt a b, s, i => a.ends s i ++ b.ends s i
  | .grp a, s, i => a.ends s i
  | .star a, s, i => reach (a.ends s) (s.length + 1) [i]
  | .plus a, s, i => (a.ends s i).flatMap fun j => reach (a.ends s) (s.length + 1) [j]
  | .opt a, s, i => i :: a.ends s i

/-- The method `MatchString`: the expression matches some part of the text. -/
def Regex.matchString (r : Regex) (s : List Char) : Bool :=
  (List.range (s.length + 1)).any fun i => !(r.ends s i).isEmpty

/-- The expression matches the whole of the text. -/
def Regex.fullMatch (r : Regex) (s : List Char) : Bool :=
  decide (s.length ∈ r.ends s 0)

/-- The meaning of an expression, stated without reference to the matcher: `Matches s r i j`
says that `r` matches the text `s` from position `i` up to position `j`. -/
inductive Matches (s : List Char) : Regex → Nat → Nat → Prop where
  | empty (i : Nat) : Matches s .empty i i
  | lit (c : Char) (i : Nat) (h : s.get? i = some c) : Matches s (.lit c) i (i + 1)
  | any (d : Char) (i : Nat) (h : s.get? i = some d) (hd : d ≠ '\n') : Matches s .any i (i + 1)
  | cls (negated : Bool) (ranges : List (Char × Char)) (d : Char) (i : Nat)
      (h : s.get? i = some d) (hd : (inRanges d ranges != negated) = true) :
      Matches s (.cls negated ranges) i (i + 1)
  | bol : Matches s .bol 0 0
  | eol : Matches s .eol s.length s.length
  | cat (a b : Regex) (i j k : Nat) (ha : Matches s a i j) (hb : Matches s b j k) :
      Matches s (.cat a b) i k
  | altLeft (a b : Regex) (i j : Nat) (ha : Matches s a i j) : Matches s (.alt a b) i j
  | altRight (a b : Regex) (i j : Nat) (hb : Matches s b i j) : Matches s (.alt a b) i j
  | grp (a : Regex) (i j : Nat) (ha : Matches s a i j) : Matches s (.grp a) i j
  | starNil (a : Regex) (i : Nat) : Matches s (.star a) i i
  | starStep (a : Regex) (i j k : Nat) (ha : Matches s a i j) (hrest : Matches s (.star a) j k) :
      Matches s (.star a) i k
  | plus (a : Regex) (i j k : Nat) (ha : Matches s a i j) (hrest : Matches s (.star a) j k) :
      Matches s (.plus a) i k
  | optNone (a : Regex) (i : Nat) : Matches s (.opt a) i i
  | optSome (a : Regex) (i j : Nat) (ha : Matches s a i j) : Matches s (.opt a) i j

/-- The position `z` is reached from `x` by `k` steps of `f`, each of which moves forward. -/
inductive Climb (f : Nat → List Nat) : Nat → Nat → Nat → Prop where
  | stay (x : Nat) : Climb f x x 0
  | move (x y z k : Nat) (hy : y ∈ f x) (hlt : x < y) (hrest : Climb f y z k) :
      Climb f x z (k + 1)

/-- The concatenation of the pieces of one alternative. -/
def mkCat : List Regex → Regex
  | [] => .empty
  | a :: rest => .cat a (mkCat rest)

/-- The alternation of the alternatives of a group or of the whole pattern. -/
def mkAlt : List Regex → Regex
  | [] => .empty
  | [a] => a
  | a :: b :: rest => .alt a (mkAlt (b :: rest))

/-- Whether a piece is a repetition already; a repetition operator after one is either
rejected by Go (`a**`) or a laziness mark (`a*?`), which the fragment leaves out. -/
def Regex.isRepeat : Regex → Bool
  | .star _ => true
  | .plus _ => true
  | .opt _ => true
  | _ => false

/-- One open group of the pattern read so far (the whole pattern is the outermost one): the
alternatives already closed by `|`, and the pieces of the current alternative, latest
first. -/
structure Frame where
  alts : List Regex
  cur : List Regex
deriving DecidableEq, Repr

/-- The expression of a group when it is closed. -/
def Frame.toRegex (f : Frame) : Regex := mkAlt (f.alts ++ [mkCat f.cur.reverse])

/-- Where the reader stands: between pieces, right after `(`, after a backslash, right after
`[`, or inside a class with the ranges read so far, a character that may start a range, and
whether a `-` followed it. -/
inductive Mode where
  | normal
  | groupOpen
  | escape
  | clsOpen
  | clsItems (negated : Bool) (done : List (Char × Char)) (pending : Option Char) (dash : Bool)
deriving DecidableEq, Repr

/-- The state of the reader: the open groups, innermost first, and the mode. -/
structure PState where
  frames : List Frame
  mode : Mode
deriving DecidableEq, Repr

/-- Adds a piece to the current alternative of the innermost group. -/
def pushPiece (r : Regex) : List Frame → Option (List Frame)
  | f :: fs => some ({ f with cur := r :: f.cur } :: fs)
  | [] => none

/-- Applies a repetition to the latest piece; there must be one, and not a repetition. -/
def repeatLast (k : Regex → Regex) : List Frame → Option (List Frame)
  | f :: fs =>
    match f.cur with
    | r :: rs => if r.isRepeat then none else some ({ f with cur := k r :: rs } :: fs)
    | [] => none
  | [] => none

/-- Closes the current alternative at `|`. -/
def newAlt : List Frame → Option (List Frame)
  | f :: fs => some ({ alts := f.alts ++ [mkCat f.cur.reverse], cur := [] } :: fs)
  | [] => none

/-- Closes the innermost group at `)`; there must be an enclosing one. -/
def closeGroup : List Frame → Option (List Frame)
  | f :: g :: fs => some ({ g with cur := .grp f.toRegex :: g.cur } :: fs)
  | _ => none

/-- ASCII letters and digits. -/
def isAlnum (c : Char) : Bool :=
  ('0'.toNat ≤ c.toNat && c.toNat ≤ '9'.toNat) || ('A'.toNat ≤ c.toNat && c.toNat ≤ 'Z'.toNat)
    || ('a'.toNat ≤ c.toNat && c.toNat ≤ 'z'.toNat)

/-- The role of a character of a pattern outside a class. -/
inductive Token where
  | backslash
  | lparen
  | rparen
  | bar
  | star
  | plus
  | quest
  | lbracket
  | unsupported
  | dot
  | caret
  | dollar
  | literal (c : Char)
deriving DecidableEq, Repr

/-- The role of a character outside a class.  `{`, `}` and `]` are left out of the fragment. -/
def tokenOf (c : Char) : Token :=
  if c = '\\' then .backslash
  else if c = '(' then .lparen
  else if c = ')' then .rparen
  else if c = '|' then .bar
  else if c = '*' then .star
  else if c = '+' then .plus
  else if c = '?' then .quest
  else if c = '[' then .lbracket
  else if c = '{' ∨ c = '}' ∨ c = ']' then .unsupported
  else if c = '.' then .dot
  else if c = '^' then .caret
  else if c = '$' then .dollar
  else .literal c

/-- Reads a character between pieces. -/
def stepNormal (frames : List Frame) (c : Char) : Option PState :=
  match tokenOf c with
  | .backslash => some ⟨frames, .escape⟩
  | .lparen => some ⟨⟨[], []⟩ :: frames, .groupOpen⟩
  | .rparen => (closeGroup frames).map (⟨·, .normal⟩)
  | .bar => (newAlt frames).map (⟨·, .normal⟩)
  | .star => (repeatLast Regex.star frames).map (⟨·, .normal⟩)
  | .plus => (repeatLast Regex.plus frames).map (⟨·, .normal⟩)
  | .quest => (repeatLast Regex.opt frames).map (⟨·, .normal⟩)
  | .lbracket => some ⟨frames, .clsOpen⟩
  | .unsupported => none
  | .dot => (pushPiece .any frames).map (⟨·, .normal⟩)
  | .caret => (pushPiece .bol frames).map (⟨·, .normal⟩)
  | .dollar => (pushPiece .eol frames).map (⟨·, .normal⟩)
  | .literal d => (pushPiece (.lit d) frames).map (⟨·, .normal⟩)

/-- The role of a character of a pattern inside a class. -/
inductive ClassToken where
  | unsupported
  | close
  | dash
  | item (c : Char)
deriving DecidableEq, Repr

/-- The role of a character inside a class.  A backslash and `[` are left out of the
fragment. -/
def classTokenOf (c : Char) : ClassToken :=
  if c = '\\' ∨ c = '[' then .unsupported
  else if c = ']' then .close
  else if c = '-' then .dash
  else .item c

/-- Reads a character inside a class.  A `-` is read only between the two ends of a range;
a range must not run backwards. -/
def stepClass (frames : List Frame) (negated : Bool) (done : List (Char × Char))
    (pending : Option Char) (dash : Bool) (c : Char) : Option PState :=
  match classTokenOf c with
  | .unsupported => none
  | .close =>
    match pending, dash with
    | some p, false => (pushPiece (.cls negated (done ++ [(p, p)])) frames).map (⟨·, .normal⟩)
    | none, false =>
      if done = [] then none
      else (pushPiece (.cls negated done) frames).map (⟨·, .normal⟩)
    | _, true => none
  | .dash =>
    match pending, dash with
    | some p, false => some ⟨frames, .clsItems negated done (some p) true⟩
    | _, _ => none
  | .item d =>
    match pending, dash with
    | some lo, true =>
      if lo.toNat ≤ d.toNat then some ⟨frames, .clsItems negated (done ++ [(lo, d)]) none false⟩
      else none
    | some p, false => some ⟨frames, .clsItems negated (done ++ [(p, p)]) (some d) false⟩
    | none, _ => some ⟨frames, .clsItems negated done (some d) false⟩

/-- Reads one character of the pattern. -/
def step (st : PState) (c : Char) : Option PState :=
  match st.mode with
  | .normal => stepNormal st.frames c
  | .groupOpen => if c = '?' then none else stepNormal st.frames c
  | .escape =>
    if c.toNat < 128 ∧ isAlnum c = false then (pushPiece (.lit c) st.frames).map (⟨·, .normal⟩)
    else none
  | .clsOpen =>
    if c = '^' then some ⟨st.frames, .clsItems true [] none false⟩
    else stepClass st.frames false [] none false c
  | .clsItems negated done pending dash => stepClass st.frames negated done pending dash c

/-- Reads the characters of the pattern from left to right. -/
def run : PState → List Char → Option PState
  | st, [] => some st
  | st, c :: cs =>
    match step st c with
    | some next => run next cs
    | none => none

/-- The expression read, at the end of the pattern: every group but the outermost must be
closed, and no escape or class may be open. -/
def finish (st : PState) : Option Regex :=
  match st.mode, st.frames with
  | .normal, [f] => some f.toRegex
  | _, _ => none

/-- The state before the first character. -/
def start : PState := ⟨[⟨[], []⟩], .normal⟩

/-- The function `regexp.Compile` on the fragment. -/
def compile (pattern : String) : Option Regex :=
  match run start pattern.data with
  | some st => finish st
  | none => none

/-- Package `regexp` on the fragment. -/
def goRegexp : Regexp Regex := ⟨compile, fun r s => r.matchString s.data⟩

/-! ## Response capture of the cache middleware (`cache.go`) -/

/-- A byte of a Go `string` or `[]byte`. -/
abbrev Byte := Fin 256

/-- The type `CachedResponse`. -/
structure CachedResponse where
  StatusCode : Nat
  Headers : List (String × List String)
  Body : List Byte
deriving DecidableEq, Repr

/-- The part of gin's own response writer the middleware depends on: the status
(`Status()`), the header map (`Header()`) and the bytes sent to the client. -/
structure GinWriter where
  status : Nat
  header : List (String × List String)
  sent : List Byte
deriving DecidableEq, Repr

/-- The method `Write` of gin's writer. -/
def GinWriter.Write (w : GinWriter) (b : List Byte) : GinWriter :=
  { w with sent := w.sent ++ b }

/-- The type `responseWriter`: the embedded `gin.ResponseWriter` and `body *bytes.Buffer`,
where `none` is the nil pointer. -/
structure responseWriter where
  ResponseWriter : GinWriter
  body : Option (List Byte)
deriving DecidableEq, Repr

/-- The method `(*bytes.Buffer).String` of the Go standard library: the buffered bytes, and
the five characters `<nil>` when the receiver is a nil pointer. -/
def bufferString : Option (List Byte) → List Byte
  | none => [60, 110, 105, 108, 62]
  | some buf => buf

/-- The method `responseWriter.Write` (its results `(int, error)` are those of the embedded
writer and are left out). -/
def responseWriter.Write (w : responseWriter) (b : List Byte) : responseWriter :=
  let body := match w.body with
    | none => some []
    | some buf => some buf
  let body := body.map fun buf => buf ++ b
  { ResponseWriter := w.ResponseWriter.Write b, body := body }

/-- A call made on `c.Writer` by the handlers that `c.Next()` runs: `Write`, or any other
method of `gin.ResponseWriter` (`WriteString`, `WriteHeader`, `Header().Set`, ...); Go
promotes those to the embedded writer. -/
inductive WriterCall where
  | Write (b : List Byte)
  | promoted (f : GinWriter → GinWriter)

/-- A call on the capturing writer. -/
def responseWriter.call (w : responseWriter) : WriterCall → responseWriter
  | .Write b => w.Write b
  | .promoted f => { w with ResponseWriter := f w.ResponseWriter }

/-- A call on gin's writer when the middleware has not replaced it. -/
def GinWriter.call (w : GinWriter) : WriterCall → GinWriter
  | .Write b => w.Write b
  | .promoted f => f w

/-- The type `config.CacheRule`, as far as the middleware reads it. -/
structure CacheRule where
  Method : String
  TTL : Nat
  Threshold : Int
deriving DecidableEq, Repr

/-- What the middleware obtains from its collaborators for one request:
`config.GetConfig().Caching.Enabled`, the result of `GetCacheRuleByPath`, of
`IncrementRequestCount`, of `CheckCache` (the content when found), `json.Unmarshal`, and
`replay`, what gin's writer holds after a cached response has been served from it (the
cached headers added with `Header().Add`, then `c.Data` with status 200 and the cached
body). -/
structure CacheEnv where
  Enabled : Bool
  rule : Option CacheRule
  count : Int
  cached : Option String
  unmarshal : String → Option CachedResponse
  replay : GinWriter → CachedResponse → GinWriter

/-- The constant `http.StatusOK`. -/
def StatusOK : Nat := 200

/-- What the middleware leaves behind: gin's writer, whether it aborted the request, and the
`cacheResp` it hands to `json.Marshal` and `SetCache`, if any. -/
structure CacheOutcome where
  writer : GinWriter
  aborted : Bool
  entry : Option CachedResponse

/-- The branches of `CacheMiddleware` that call `c.Next()` without capturing. -/
def passThrough (inner : GinWriter) (downstream : List WriterCall) : CacheOutcome :=
  ⟨downstream.foldl GinWriter.call inner, false, none⟩

/-- The capture branch of `CacheMiddleware` (source lines 97 to 118). -/
def captureResponse (inner : GinWriter) (downstream : List WriterCall) : CacheOutcome :=
  let writer : responseWriter := { ResponseWriter := inner, body := none }
  let writer := downstream.foldl responseWriter.call writer
  if writer.ResponseWriter.status = StatusOK then
    let cacheResp : CachedResponse :=
      { StatusCode := writer.ResponseWriter.status
        Headers := writer.ResponseWriter.header
        Body := bufferString writer.body }
    ⟨writer.ResponseWriter, false, some cacheResp⟩
  else ⟨writer.ResponseWriter, false, none⟩

/-- The handler returned by `CacheMiddleware`, for a request with the given method, gin's
writer `inner`, and `downstream`, the calls the later handlers make on `c.Writer`. -/
def CacheMiddleware (env : CacheEnv) (method : String) (inner : GinWriter)
    (downstream : List WriterCall) : CacheOutcome :=
  if !env.Enabled then passThrough inner downstream
  else
    match env.rule with
    | none => passThrough inner downstream
    | some rule =>
      if rule.Method ≠ method then passThrough inner downstream
      else if method ≠ "GET" then passThrough inner downstream
      else
        match env.cached.bind env.unmarshal with
        | some cachedResp => ⟨env.replay inner cachedResp, true, none⟩
        | none =>
          if env.count < rule.Threshold then passThrough inner downstream
          else captureResponse inner downstream

/-! ## Notions used to state the properties -/

/-- The configured names that are present in the registry, in configured order. -/
def presentMiddlewares {σ : Type} (mwRegistry : String → Option (HandlerFunc σ))
    (names : List String) : List String :=
  names.filter fun name => (mwRegistry name).isSome

/-- No middleware aborts: run in order from `c`, the registry's handlers for the names never
leave the context aborted. -/
def noneAborts {σ : Type} (mwRegistry : String → Option (HandlerFunc σ)) :
    List String → Context σ → Bool
  | [], _ => true
  | name :: rest, c =>
    match mwRegistry name with
    | some mwFunc => !(mwFunc c).aborted && noneAborts mwRegistry rest (mwFunc c)
    | none => noneAborts mwRegistry rest c

/-- The context after the registry's handlers for the names have run in order. -/
def afterMiddlewares {σ : Type} (mwRegistry : String → Option (HandlerFunc σ)) :
    List String → Context σ → Context σ
  | [], c => c
  | name :: rest, c =>
    match mwRegistry name with
    | some mwFunc => afterMiddlewares mwRegistry rest (mwFunc c)
    | none => afterMiddlewares mwRegistry rest c

/-- Whether `Setup` treats the rules of a path as a regex route: the first rule is flagged
and the engine mode is `regex`. -/
def isRegexRoute (mode : String) (targetRules : RoutingRules) : Bool :=
  match targetRules with
  | first :: _ => first.IsRegex && mode == "regex"
  | [] => false

/-- The regex entries asked of `Setup`: one for each regex route whose anchored pattern
compiles, carrying its rules, in the order of iteration. -/
def specRegexEntries {R : Type} (re : Regexp R) (mode : String)
    (rules : List (String × RoutingRules)) : List (regexRouteEntry R) :=
  rules.filterMap fun entry =>
    if isRegexRoute mode entry.2 then
      (re.Compile ("^" ++ entry.1 ++ "$")).map fun compiled => ⟨compiled, entry.2⟩
    else none

/-- The exact registrations asked of `Setup`: one for each path that is not a regex route,
with the handler chain of its rules, in the order of iteration. -/
def specExactRoutes {σ : Type} (CreateHTTPHandler : RoutingRules → HandlerFunc σ)
    (mode : String) (mwRegistry : String → Option (HandlerFunc σ))
    (rules : List (String × RoutingRules)) : List (String × List (ChainHandler σ)) :=
  rules.filterMap fun entry =>
    if isRegexRoute mode entry.2 then none
    else some (entry.1, routeHandlers CreateHTTPHandler mwRegistry entry.2)

/-- Whether gin accepts, one after the other, the registrations `Setup` makes for the paths
that are not regex routes, when the paths `registered` have been registered before. -/
def acceptsRoutes {σ : Type} (gin : Gin) (CreateHTTPHandler : RoutingRules → HandlerFunc σ)
    (mode : String) (mwRegistry : String → Option (HandlerFunc σ)) :
    List String → List (String × RoutingRules) → Bool
  | _, [] => true
  | registered, entry :: rest =>
    if isRegexRoute mode entry.2 then
      acceptsRoutes gin CreateHTTPHandler mode mwRegistry registered rest
    else
      gin.accepts registered entry.1
          (routeHandlers CreateHTTPHandler mwRegistry entry.2).length &&
        acceptsRoutes gin CreateHTTPHandler mode mwRegistry (registered ++ [entry.1]) rest

/-- A gin router on which nothing has been registered yet: the engine returned by `gin.New`
when `isEngine` holds, otherwise a router group. -/
def freshRouter (σ : Type) (isEngine : Bool) : IRouter σ := ⟨isEngine, [], none⟩

/-- The slices handed to `Write`, in order. -/
def writtenSlices : List WriterCall → List (List Byte)
  | [] => []
  | .Write b :: rest => b :: writtenSlices rest
  | .promoted _ :: rest => writtenSlices rest

/-- The pattern of `Setup` with `^` in front of the outermost group: before its first
alternative once a `|` has closed it, otherwise before the pieces read so far. -/
def addBol (f : Frame) : Frame :=
  match f.alts with
  | [] => { f with cur := f.cur ++ [Regex.bol] }
  | a :: rest => { f with alts := Regex.cat Regex.bol a :: rest }

/-- Puts `^` in front of the outermost of the open groups. -/
def anchorBottom : List Frame → List Frame
  | [] => []
  | [f] => [addBol f]
  | f :: g :: rest => f :: anchorBottom (g :: rest)

/-- The state of the reader had the pattern started with `^`. -/
def PState.anchored (st : PState) : PState := ⟨anchorBottom st.frames, st.mode⟩

/-- The middleware names `handleRegexMatch` reads for an entry: those of its first rule. -/
def entryMiddlewares {R : Type} (entry : regexRouteEntry R) : List String :=
  match entry.TargetRules with
  | first :: _ => first.Middlewares
  | [] => []

/-- Whether a regex entry that `Setup` registers in regex mode for the single regex-flagged
path `pattern` matches the request path, with the fragment of package `regexp`. -/
def registeredMatches (pattern path : String) : Bool :=
  match Setup ginTree goRegexp (NewGinRouter Regex) (freshRouter Unit true) (fun _ c => c)
      ⟨[(pattern, [⟨"", 1, true, []⟩])], "regex", "", ""⟩ (fun _ => none) with
  | some out => out.1.regexRoutes.any fun entry => goRegexp.MatchString entry.Pattern path
  | none => false

/-- Whether the pattern, compiled on its own, matches the whole of the path. -/
def wholeMatch (pattern path : String) : Option Bool :=
  (compile pattern).map fun r => r.fullMatch path.data

/-! ## Concrete inputs -/

/-- A registry with `auth`, which aborts every request, and `log`, which records itself in the
store. -/
def demoRegistry : String → Option (HandlerFunc (List String)) := fun name =>
  if name = "auth" then some fun c => { c with aborted := true }
  else if name = "log" then some fun c => { c with store := c.store ++ ["log"] }
  else none

/-- A proxy handler that writes the reply of the upstream and records itself in the store. -/
def demoProxy : RoutingRules → HandlerFunc (List String) :=
  fun _ c =>
    { c with written := c.written ++ [Output.text 200 "upstream"], store := c.store ++ ["proxy"] }

/-- A request for the given path on which nothing has run yet. -/
def demoRequest (path : String) : Context (List String) := ⟨path, "GET", false, [], []⟩

/-- A regex rule with the given target and middleware names. -/
def regexRule (target : String) (middlewares : List String) : RoutingRule :=
  ⟨target, 1, true, middlewares⟩

/-- A rule of an exact route with the given target and middleware names. -/
def exactRule (target : String) (middlewares : List String) : RoutingRule :=
  ⟨target, 1, false, middlewares⟩

/-- The pattern `^/a.*$`. -/
def patternA : Regex := mkCat [.bol, .lit '/', .lit 'a', .star .any, .eol]

/-- The pattern `^/b$`. -/
def patternB : Regex := mkCat [.bol, .lit '/', .lit 'b', .eol]

/-- An entry whose third middleware, `auth`, aborts; `missing` is not in the registry. -/
def guardedEntry : regexRouteEntry Regex :=
  ⟨patternA, [regexRule "http://backend-a" ["log", "missing", "auth", "log"]]⟩

/-- An entry none of whose middlewares aborts; `missing` is not in the registry. -/
def openEntry : regexRouteEntry Regex :=
  ⟨patternA, [regexRule "http://backend-a" ["log", "missing", "log"]]⟩

/-- An entry that does not match paths under `/a`. -/
def otherEntry : regexRouteEntry Regex := ⟨patternB, [regexRule "http://backend-b" ["auth"]]⟩

/-- A configuration with one exact route `/a` and no regex route. -/
def exactOnlyConfig : Config := ⟨[("/a", [exactRule "http://backend-a" []])], "regex", "", ""⟩

/-- A configuration with the exact route `/a/1` and the regex route `/a.*`, which also
matches `/a/1`. -/
def mixedConfig : Config :=
  ⟨[("/a.*", [regexRule "http://backend-r" ["log"]]),
    ("/a/1", [exactRule "http://backend-a" ["missing", "log"]]),
    ("/b(", [regexRule "http://backend-b" []])], "regex", "", ""⟩

/-- A configuration with the exact route `/a` and an exact route whose path, `/f/*`, gin
rejects: its catch-all wildcard has no name. -/
def unnamedWildcardConfig : Config :=
  ⟨[("/a", [exactRule "http://backend-a" []]), ("/f/*", [exactRule "http://backend-f" []])],
    "regex", "", ""⟩

/-- Two regex routes that both match `/abc`. -/
def overlapRules : List (String × RoutingRules) :=
  [("/a.*", [regexRule "http://backend-1" []]), ("/ab.*", [regexRule "http://backend-2" []])]

/-- The same rule map, visited in the other order. -/
def overlapRulesSwapped : List (String × RoutingRules) :=
  [("/ab.*", [regexRule "http://backend-2" []]), ("/a.*", [regexRule "http://backend-1" []])]

/-- The handlers that run when `Setup`, on a new router and a new gin engine, is followed by
`handleRegexMatch` for a request. -/
def setupThenDispatch {σ R : Type} (gin : Gin) (re : Regexp R)
    (CreateHTTPHandler : RoutingRules → HandlerFunc σ) (cfg : Config)
    (mwRegistry : String → Option (HandlerFunc σ)) (c : Context σ) :
    Option (List Call) :=
  (Setup gin re (NewGinRouter R) (freshRouter σ true) CreateHTTPHandler cfg mwRegistry).map
    fun out => (handleRegexMatch re out.1 CreateHTTPHandler mwRegistry c).2

/-- What gin answers for a request after `Setup` on a new router and a new gin engine. -/
def setupThenServe {σ R : Type} (gin : Gin) (re : Regexp R)
    (CreateHTTPHandler : RoutingRules → HandlerFunc σ) (cfg : Config)
    (mwRegistry : String → Option (HandlerFunc σ)) (c : Context σ) :
    Option (Context σ × List Call) :=
  (Setup gin re (NewGinRouter R) (freshRouter σ true) CreateHTTPHandler cfg mwRegistry).map
    fun out => serve gin out.2 c

/-- A cache configuration on whose capture branch a `GET` request arrives: caching is enabled,
the rule is a `GET` rule with threshold 1, this is the first request, nothing is cached. -/
def captureEnv : CacheEnv :=
  ⟨true, some ⟨"GET", 60, 1⟩, 1, none, fun _ => none, fun w cached =>
    { w with status := 200, sent := w.sent ++ cached.Body }⟩

/-- The writer of gin before any handler has touched it: status 200, nothing sent. -/
def newWriter : GinWriter := ⟨200, [], []⟩

/-- Balancer constructors for the concrete inputs: a balancer is represented by its name. -/
def demoConstructors : Constructors String :=
  ⟨"round-robin", fun _ => "ketama", fun _ => (none, some "consul: no address"),
    fun _ => "weighted-round-robin"⟩

/-! ## Theorems -/

/-! ### The middleware loop and the handler chain -/

theorem runMiddlewares_of_noneAborts {σ : Type} (mwRegistry : String → Option (HandlerFunc σ))
    (names : List String) : ∀ c : Context σ, noneAborts mwRegistry names c = true →
      runMiddlewares mwRegistry names c =
        (afterMiddlewares mwRegistry names c,
          (presentMiddlewares mwRegistry names).map Call.middleware, false) := by
  induction names with
  | nil => intro c _; rfl
  | cons name rest ih =>
    intro c h
    cases hreg : mwRegistry name with
    | none =>
      simp only [noneAborts, hreg] at h
      simp [runMiddlewares, afterMiddlewares, presentMiddlewares, hreg, ih c h]
    | some mwFunc =>
      simp only [noneAborts, hreg, Bool.and_eq_true, Bool.not_eq_true'] at h
      simp [runMiddlewares, afterMiddlewares, presentMiddlewares, hreg, h.1, ih _ h.2]

theorem runMiddlewares_of_abort {σ : Type} (mwRegistry : String → Option (HandlerFunc σ))
    (name : String) (after : List String) (mwFunc : HandlerFunc σ)
    (hreg : mwRegistry name = some mwFunc) (before : List String) :
    ∀ c : Context σ, noneAborts mwRegistry before c = true →
      (mwFunc (afterMiddlewares mwRegistry before c)).aborted = true →
      runMiddlewares mwRegistry (before ++ name :: after) c =
        (mwFunc (afterMiddlewares mwRegistry before c),
          (presentMiddlewares mwRegistry before).map Call.middleware ++ [Call.middleware name],
          true) := by
  induction before with
  | nil =>
    intro c _ hab
    simp only [afterMiddlewares] at hab
    simp [runMiddlewares, afterMiddlewares, presentMiddlewares, hreg, hab]
  | cons first rest ih =>
    intro c h hab
    cases hfirst : mwRegistry first with
    | none =>
      simp only [noneAborts, hfirst] at h
      simp only [afterMiddlewares, hfirst] at hab
      simp [runMiddlewares, afterMiddlewares, presentMiddlewares, hfirst, ih c h hab]
    | some g =>
      simp only [noneAborts, hfirst, Bool.and_eq_true, Bool.not_eq_true'] at h
      simp only [afterMiddlewares, hfirst] at hab
      simp [runMiddlewares, afterMiddlewares, presentMiddlewares, hfirst, h.1, ih _ h.2 hab]

theorem runChain_middlewares {σ : Type} (mwRegistry : String → Option (HandlerFunc σ))
    (last : ChainHandler σ) (names : List String) : ∀ c : Context σ, c.aborted = false →
      noneAborts mwRegistry names c = true →
      runChain
          (names.filterMap (fun name =>
            (mwRegistry name).map fun mwFunc => ⟨Call.middleware name, mwFunc⟩) ++ [last]) c =
        (last.run (afterMiddlewares mwRegistry names c),
          (presentMiddlewares mwRegistry names).map Call.middleware ++ [last.label]) := by
  induction names with
  | nil =>
    intro c hc _
    simp [runChain, afterMiddlewares, presentMiddlewares, hc]
  | cons name rest ih =>
    intro c hc h
    cases hreg : mwRegistry name with
    | none =>
      simp only [noneAborts, hreg] at h
      simp [afterMiddlewares, presentMiddlewares, hreg, List.filterMap_cons]
      simpa [presentMiddlewares] using ih c hc h
    | some mwFunc =>
      simp only [noneAborts, hreg, Bool.and_eq_true, Bool.not_eq_true'] at h
      have hrest := ih _ h.1 h.2
      simp only [presentMiddlewares] at hrest
      simp [runChain, afterMiddlewares, presentMiddlewares, hreg, hc, List.filterMap_cons, hrest]

theorem scanRegexRoutes_eq_find {σ R : Type} (re : Regexp R)
    (CreateHTTPHandler : RoutingRules → HandlerFunc σ)
    (mwRegistry : String → Option (HandlerFunc σ)) (requestPath : String) (c : Context σ)
    (entries : List (regexRouteEntry R)) :
    scanRegexRoutes re CreateHTTPHandler mwRegistry requestPath entries c =
      match entries.find? (fun entry => re.MatchString entry.Pattern requestPath) with
      | some entry => dispatchEntry CreateHTTPHandler mwRegistry entry c
      | none => (c.JSON StatusNotFound "error" StatusNotFound, []) := by
  induction entries with
  | nil => rfl
  | cons entry rest ih =>
    by_cases hm : re.MatchString entry.Pattern requestPath = true
    · simp [scanRegexRoutes, List.find?, hm]
    · simp only [Bool.not_eq_true] at hm
      simp [scanRegexRoutes, List.find?, hm, ih]

theorem find_first_match {α : Type} (p : α → Bool) (before : List α) (x : α) (after : List α)
    (hbefore : ∀ y ∈ before, p y = false) (hx : p x = true) :
    (before ++ x :: after).find? p = some x := by
  induction before with
  | nil => simp [List.find?, hx]
  | cons y rest ih =>
    have hy : p y = false := hbefore y (by simp)
    simp only [List.cons_append, List.find?, hy]
    exact ih fun z hz => hbefore z (by simp [hz])

/-! ### What `Setup` registers -/

theorem specRegexEntries_cons {R : Type} (re : Regexp R) (mode : String)
    (entry : String × RoutingRules) (rest : List (String × RoutingRules)) :
    specRegexEntries re mode (entry :: rest) =
      specRegexEntries re mode [entry] ++ specRegexEntries re mode rest := by
  simp only [specRegexEntries]
  rw [← List.filterMap_append]
  rfl

theorem specExactRoutes_cons {σ : Type} (CreateHTTPHandler : RoutingRules → HandlerFunc σ)
    (mode : String) (mwRegistry : String → Option (HandlerFunc σ))
    (entry : String × RoutingRules) (rest : List (String × RoutingRules)) :
    specExactRoutes CreateHTTPHandler mode mwRegistry (entry :: rest) =
      specExactRoutes CreateHTTPHandler mode mwRegistry [entry] ++
        specExactRoutes CreateHTTPHandler mode mwRegistry rest := by
  simp only [specExactRoutes]
  rw [← List.filterMap_append]
  rfl

/-- One iteration of the loop returns exactly when the path has a rule and is a regex route
or is accepted by gin, and then it has made the registration asked of it. -/
theorem setupRoute_eq {σ R : Type} (gin : Gin) (re : Regexp R)
    (CreateHTTPHandler : RoutingRules → HandlerFunc σ) (mode : String)
    (mwRegistry : String → Option (HandlerFunc σ)) (state : GinRouter R × IRouter σ)
    (entry : String × RoutingRules) :
    setupRoute gin re CreateHTTPHandler mode mwRegistry state entry =
      if entry.2 ≠ [] ∧ (isRegexRoute mode entry.2 = true ∨
          gin.accepts state.2.paths entry.1
            (routeHandlers CreateHTTPHandler mwRegistry entry.2).length = true) then
        some (⟨state.1.regexRoutes ++ specRegexEntries re mode [entry]⟩,
          { state.2 with routes := state.2.routes ++
              specExactRoutes CreateHTTPHandler mode mwRegistry [entry] })
      else none := by
  obtain ⟨path, targetRules⟩ := entry
  obtain ⟨gr, r⟩ := state
  cases targetRules with
  | nil => simp [setupRoute]
  | cons first rest =>
    by_cases hregex : (first.IsRegex && mode == "regex") = true
    · cases hc : re.Compile ("^" ++ path ++ "$") with
      | none =>
        simp [setupRoute, specRegexEntries, specExactRoutes, isRegexRoute, hregex, hc]
      | some compiled =>
        simp [setupRoute, specRegexEntries, specExactRoutes, isRegexRoute, hregex, hc]
    · by_cases hacc : gin.accepts r.paths path
          (routeHandlers CreateHTTPHandler mwRegistry (first :: rest)).length = true
      · simp [setupRoute, specRegexEntries, specExactRoutes, isRegexRoute, hregex, IRouter.Any,
          hacc]
      · simp [setupRoute, specRegexEntries, specExactRoutes, isRegexRoute, hregex, IRouter.Any,
          hacc]

/-- When the loop returns it has made the registrations asked of it, and every path had a
rule. -/
theorem setupRoutes_of_some {σ R : Type} (gin : Gin) (re : Regexp R)
    (CreateHTTPHandler : RoutingRules → HandlerFunc σ) (mode : String)
    (mwRegistry : String → Option (HandlerFunc σ)) (rules : List (String × RoutingRules)) :
    ∀ state out : GinRouter R × IRouter σ,
      setupRoutes gin re CreateHTTPHandler mode mwRegistry rules state = some out →
      out = (⟨state.1.regexRoutes ++ specRegexEntries re mode rules⟩,
          { state.2 with routes := state.2.routes ++
              specExactRoutes CreateHTTPHandler mode mwRegistry rules }) ∧
        ∀ entry ∈ rules, entry.2 ≠ [] := by
  induction rules with
  | nil =>
    intro state out h
    simp only [setupRoutes, Option.some.injEq] at h
    subst h
    simp [specRegexEntries, specExactRoutes]
  | cons entry rest ih =>
    intro state out h
    simp only [setupRoutes, setupRoute_eq] at h
    split_ifs at h with hcond
    obtain ⟨hout, hrest⟩ := ih _ out h
    refine ⟨?_, ?_⟩
    · rw [hout, specRegexEntries_cons re mode entry rest,
        specExactRoutes_cons CreateHTTPHandler mode mwRegistry entry rest]
      simp [List.append_assoc]
    · intro e he
      rcases List.mem_cons.mp he with heq | hmem
      · rw [heq]; exact hcond.1
      · exact hrest e hmem

/-- The loop returns when every path has a rule and gin accepts the registrations. -/
theorem setupRoutes_of_accepts {σ R : Type} (gin : Gin) (re : Regexp R)
    (CreateHTTPHandler : RoutingRules → HandlerFunc σ) (mode : String)
    (mwRegistry : String → Option (HandlerFunc σ)) (rules : List (String × RoutingRules)) :
    ∀ state : GinRouter R × IRouter σ, (∀ entry ∈ rules, entry.2 ≠ []) →
      acceptsRoutes gin CreateHTTPHandler mode mwRegistry state.2.paths rules = true →
      ∃ out, setupRoutes gin re CreateHTTPHandler mode mwRegistry rules state = some out := by
  induction rules with
  | nil => intro state _ _; exact ⟨state, rfl⟩
  | cons entry rest ih =>
    intro state hrules hacc
    have hentry : entry.2 ≠ [] := hrules entry (by simp)
    have hrest : ∀ e ∈ rest, e.2 ≠ [] := fun e he => hrules e (by simp [he])
    simp only [setupRoutes, setupRoute_eq]
    by_cases hregex : isRegexRoute mode entry.2 = true
    · simp only [acceptsRoutes, hregex, if_true] at hacc
      rw [if_pos ⟨hentry, Or.inl hregex⟩]
      apply ih _ hrest
      simpa [IRouter.paths, specExactRoutes, hregex] using hacc
    · simp only [acceptsRoutes, hregex, Bool.false_eq_true, if_false, Bool.and_eq_true] at hacc
      rw [if_pos ⟨hentry, Or.inr hacc.1⟩]
      apply ih _ hrest
      simpa [IRouter.paths, specExactRoutes, hregex] using hacc.2

/-- The result of `Setup` on a new `GinRouter`, when it returns. -/
theorem Setup_of_some {σ R : Type} (gin : Gin) (re : Regexp R) (r : IRouter σ)
    (CreateHTTPHandler : RoutingRules → HandlerFunc σ) (cfg : Config)
    (mwRegistry : String → Option (HandlerFunc σ)) (out : GinRouter R × IRouter σ)
    (h : Setup gin re (NewGinRouter R) r CreateHTTPHandler cfg mwRegistry = some out) :
    out = (⟨specRegexEntries re cfg.Engine cfg.httpRules⟩,
        { isEngine := r.isEngine
          routes := r.routes ++
            specExactRoutes CreateHTTPHandler cfg.Engine mwRegistry cfg.httpRules
          noRoute :=
            if !(specRegexEntries re cfg.Engine cfg.httpRules).isEmpty && r.isEngine then
              some (handleRegexMatch re ⟨specRegexEntries re cfg.Engine cfg.httpRules⟩
                CreateHTTPHandler mwRegistry)
            else r.noRoute }) ∧
      ∀ entry ∈ cfg.httpRules, entry.2 ≠ [] := by
  unfold Setup at h
  by_cases hlen : cfg.httpRules.length = 0
  · have hnil : cfg.httpRules = [] := List.length_eq_zero.mp hlen
    simp only [hnil, List.length_nil, if_true, Option.some.injEq] at h
    subst h
    simp [hnil, specRegexEntries, specExactRoutes, NewGinRouter]
  · simp only [hlen, if_false] at h
    cases hloop : setupRoutes gin re CreateHTTPHandler cfg.Engine mwRegistry cfg.httpRules
        (NewGinRouter R, r) with
    | none => simp [hloop] at h
    | some mid =>
      obtain ⟨hmid, hrules⟩ := setupRoutes_of_some gin re CreateHTTPHandler cfg.Engine
        mwRegistry cfg.httpRules _ mid hloop
      refine ⟨?_, hrules⟩
      rw [hloop, hmid] at h
      simp only [NewGinRouter, List.nil_append] at h
      cases hspec : specRegexEntries re cfg.Engine cfg.httpRules with
      | nil =>
        simp only [hspec, List.length_nil, gt_iff_lt, lt_self_iff_false, if_false,
          Option.some.injEq] at h
        subst h
        simp
      | cons first rest =>
        by_cases he : r.isEngine = true
        · simp only [hspec, List.length_cons, gt_iff_lt, Nat.zero_lt_succ, if_true, he,
            Option.some.injEq] at h
          subst h
          simp [he]
        · simp only [hspec, List.length_cons, gt_iff_lt, Nat.zero_lt_succ, if_true, he,
            Bool.false_eq_true, if_false, Option.some.injEq] at h
          subst h
          simp [he]

/-- `Setup` on a new `GinRouter` returns when every path has a rule and gin accepts the
registrations. -/
theorem Setup_of_accepts {σ R : Type} (gin : Gin) (re : Regexp R) (r : IRouter σ)
    (CreateHTTPHandler : RoutingRules → HandlerFunc σ) (cfg : Config)
    (mwRegistry : String → Option (HandlerFunc σ))
    (hrules : ∀ entry ∈ cfg.httpRules, entry.2 ≠ [])
    (hacc : acceptsRoutes gin CreateHTTPHandler cfg.Engine mwRegistry r.paths cfg.httpRules =
      true) :
    ∃ out, Setup gin re (NewGinRouter R) r CreateHTTPHandler cfg mwRegistry = some out := by
  unfold Setup
  by_cases hlen : cfg.httpRules.length = 0
  · exact ⟨(NewGinRouter R, r), by simp [hlen]⟩
  · obtain ⟨mid, hmid⟩ := setupRoutes_of_accepts gin re CreateHTTPHandler cfg.Engine mwRegistry
      cfg.httpRules (NewGinRouter R, r) hrules hacc
    simp only [hlen, if_false, hmid]
    obtain ⟨gr1, r1⟩ := mid
    simp only []
    split_ifs <;> exact ⟨_, rfl⟩

/-- The result of `Setup` on a new `GinRouter`, in closed form, when every path has a rule
and gin accepts the registrations. -/
theorem Setup_eq {σ R : Type} (gin : Gin) (re : Regexp R) (r : IRouter σ)
    (CreateHTTPHandler : RoutingRules → HandlerFunc σ) (cfg : Config)
    (mwRegistry : String → Option (HandlerFunc σ))
    (hrules : ∀ entry ∈ cfg.httpRules, entry.2 ≠ [])
    (hacc : acceptsRoutes gin CreateHTTPHandler cfg.Engine mwRegistry r.paths cfg.httpRules =
      true) :
    Setup gin re (NewGinRouter R) r CreateHTTPHandler cfg mwRegistry =
      some (⟨specRegexEntries re cfg.Engine cfg.httpRules⟩,
        { isEngine := r.isEngine
          routes := r.routes ++
            specExactRoutes CreateHTTPHandler cfg.Engine mwRegistry cfg.httpRules
          noRoute :=
            if !(specRegexEntries re cfg.Engine cfg.httpRules).isEmpty && r.isEngine then
              some (handleRegexMatch re ⟨specRegexEntries re cfg.Engine cfg.httpRules⟩
                CreateHTTPHandler mwRegistry)
            else r.noRoute }) := by
  obtain ⟨out, hout⟩ := Setup_of_accepts gin re r CreateHTTPHandler cfg mwRegistry hrules hacc
  rw [hout, (Setup_of_some gin re r CreateHTTPHandler cfg mwRegistry out hout).1]

/-! ### The regex dispatch -/

/-- C2: in `handleRegexMatch`, when a middleware of the matched entry (the first entry whose
pattern matches the request path) leaves the context aborted, the handlers that ran are the
present middlewares before it and that middleware, nothing after it: no later middleware is
called and the proxy handler is not invoked. -/
theorem handleRegexMatch_abort_stops {σ R : Type} (re : Regexp R) (gr : GinRouter R)
    (CreateHTTPHandler : RoutingRules → HandlerFunc σ)
    (mwRegistry : String → Option (HandlerFunc σ)) (c : Context σ)
    (entry : regexRouteEntry R) (before : List String) (name : String) (after : List String)
    (mwFunc : HandlerFunc σ)
    (hfind : gr.regexRoutes.find? (fun e => re.MatchString e.Pattern c.requestPath) =
      some entry)
    (hnames : entryMiddlewares entry = before ++ name :: after)
    (hreg : mwRegistry name = some mwFunc)
    (hbefore : noneAborts mwRegistry before c = true)
    (habort : (mwFunc (afterMiddlewares mwRegistry before c)).aborted = true) :
    handleRegexMatch re gr CreateHTTPHandler mwRegistry c =
        (mwFunc (afterMiddlewares mwRegistry before c),
          (presentMiddlewares mwRegistry before).map Call.middleware ++
            [Call.middleware name]) ∧
      ∀ rules : RoutingRules,
        Call.proxy rules ∉ (handleRegexMatch re gr CreateHTTPHandler mwRegistry c).2 := by
  have hrun : handleRegexMatch re gr CreateHTTPHandler mwRegistry c =
      (mwFunc (afterMiddlewares mwRegistry before c),
        (presentMiddlewares mwRegistry before).map Call.middleware ++
          [Call.middleware name]) := by
    simp only [handleRegexMatch, scanRegexRoutes_eq_find, hfind]
    obtain ⟨pattern, targetRules⟩ := entry
    cases targetRules with
    | nil => simp [entryMiddlewares] at hnames
    | cons first rest =>
      simp only [entryMiddlewares] at hnames
      simp [dispatchEntry, hnames,
        runMiddlewares_of_abort mwRegistry name after mwFunc hreg before c hbefore habort]
  refine ⟨hrun, ?_⟩
  intro rules
  rw [hrun]
  simp

/-- C4: `handleRegexMatch` serves the request with the first entry, in registration order,
whose pattern matches the path: its result is that of dispatching to this entry alone, and
when none of its middlewares aborts the handlers that ran are its present middlewares followed
by its proxy handler, which is invoked exactly once. -/
theorem handleRegexMatch_first_match {σ R : Type} (re : Regexp R) (gr : GinRouter R)
    (CreateHTTPHandler : RoutingRules → HandlerFunc σ)
    (mwRegistry : String → Option (HandlerFunc σ)) (c : Context σ)
    (before : List (regexRouteEntry R)) (entry : regexRouteEntry R)
    (after : List (regexRouteEntry R))
    (hroutes : gr.regexRoutes = before ++ entry :: after)
    (hbefore : ∀ e ∈ before, re.MatchString e.Pattern c.requestPath = false)
    (hmatch : re.MatchString entry.Pattern c.requestPath = true) :
    handleRegexMatch re gr CreateHTTPHandler mwRegistry c =
        handleRegexMatch re ⟨[entry]⟩ CreateHTTPHandler mwRegistry c ∧
      (noneAborts mwRegistry (entryMiddlewares entry) c = true →
        (handleRegexMatch re gr CreateHTTPHandler mwRegistry c).2 =
            (presentMiddlewares mwRegistry (entryMiddlewares entry)).map Call.middleware ++
              [Call.proxy entry.TargetRules] ∧
          (handleRegexMatch re gr CreateHTTPHandler mwRegistry c).2.count
            (Call.proxy entry.TargetRules) = 1) := by
  have hfind := find_first_match (fun e => re.MatchString e.Pattern c.requestPath)
    before entry after hbefore hmatch
  have hrun : handleRegexMatch re gr CreateHTTPHandler mwRegistry c =
      dispatchEntry CreateHTTPHandler mwRegistry entry c := by
    simp only [handleRegexMatch, scanRegexRoutes_eq_find, hroutes, hfind]
  have hone : handleRegexMatch re ⟨[entry]⟩ CreateHTTPHandler mwRegistry c =
      dispatchEntry CreateHTTPHandler mwRegistry entry c := by
    simp [handleRegexMatch, scanRegexRoutes, hmatch]
  refine ⟨hrun.trans hone.symm, ?_⟩
  intro hno
  have hcalls : (dispatchEntry CreateHTTPHandler mwRegistry entry c).2 =
      (presentMiddlewares mwRegistry (entryMiddlewares entry)).map Call.middleware ++
        [Call.proxy entry.TargetRules] := by
    obtain ⟨pattern, targetRules⟩ := entry
    cases targetRules with
    | nil => simp [dispatchEntry, entryMiddlewares, presentMiddlewares]
    | cons first rest =>
      simp only [entryMiddlewares] at hno
      simp [dispatchEntry, entryMiddlewares,
        runMiddlewares_of_noneAborts mwRegistry first.Middlewares c hno]
  rw [hrun, hcalls]
  refine ⟨rfl, ?_⟩
  rw [List.count_append]
  have hzero : ((presentMiddlewares mwRegistry (entryMiddlewares entry)).map
      Call.middleware).count (Call.proxy entry.TargetRules) = 0 := by
    rw [List.count_eq_zero]
    simp
  simp [hzero]

/-- C2 at a concrete input: `auth` aborts after `log` has run; the second `log` and the proxy
handler do not run. -/
theorem handleRegexMatch_abort_stops_witness :
    handleRegexMatch goRegexp ⟨[otherEntry, guardedEntry]⟩ demoProxy demoRegistry
        (demoRequest "/a/1") =
      (⟨"/a/1", "GET", true, [], ["log"]⟩, [Call.middleware "log", Call.middleware "auth"]) :=
  (handleRegexMatch_abort_stops goRegexp ⟨[otherEntry, guardedEntry]⟩ demoProxy demoRegistry
    (demoRequest "/a/1") guardedEntry ["log", "missing"] "auth" ["log"]
    (fun c => { c with aborted := true }) (by decide) (by decide) (by simp [demoRegistry])
    (by decide) (by decide)).1

/-- C4 at a concrete input: the second entry is the first that matches `/a/1`; its present
middleware `log` runs twice and its proxy handler once. -/
theorem handleRegexMatch_first_match_witness :
    (handleRegexMatch goRegexp ⟨[otherEntry, openEntry, guardedEntry]⟩ demoProxy demoRegistry
        (demoRequest "/a/1")).2 =
      [Call.middleware "log", Call.middleware "log", Call.proxy openEntry.TargetRules] :=
  ((handleRegexMatch_first_match goRegexp ⟨[otherEntry, openEntry, guardedEntry]⟩ demoProxy
    demoRegistry (demoRequest "/a/1") [otherEntry] openEntry [guardedEntry] rfl (by decide)
    (by decide)).2 (by decide)).1

/-- C7: for a route with first rule `first`, any registry, and a request on which none of the
route's middlewares aborts, the handlers that run are the registry's handlers for the
configured names that are present in the registry, in configured order, and then the proxy
handler; an absent name is skipped.  This holds for the chain `Setup` registers for an exact
route, wherever gin accepts the registration, when gin runs it, and for the dispatch of
`handleRegexMatch` to a regex entry. -/
theorem middleware_chain_order {σ R : Type} (gin : Gin) (re : Regexp R)
    (CreateHTTPHandler : RoutingRules → HandlerFunc σ)
    (mwRegistry : String → Option (HandlerFunc σ)) (first : RoutingRule) (more : RoutingRules)
    (c : Context σ) (hfresh : c.aborted = false)
    (hno : noneAborts mwRegistry first.Middlewares c = true) :
    (∀ (mode path : String) (state out : GinRouter R × IRouter σ),
        isRegexRoute mode (first :: more) = false →
        setupRoute gin re CreateHTTPHandler mode mwRegistry state (path, first :: more) =
          some out →
        ∃ chain : List (ChainHandler σ),
          out = (state.1, { state.2 with routes := state.2.routes ++ [(path, chain)] }) ∧
            runChain chain c =
              (CreateHTTPHandler (first :: more)
                  (afterMiddlewares mwRegistry first.Middlewares c),
                (presentMiddlewares mwRegistry first.Middlewares).map Call.middleware ++
                  [Call.proxy (first :: more)])) ∧
      ∀ pattern : R,
        dispatchEntry CreateHTTPHandler mwRegistry ⟨pattern, first :: more⟩ c =
          (CreateHTTPHandler (first :: more)
              (afterMiddlewares mwRegistry first.Middlewares c),
            (presentMiddlewares mwRegistry first.Middlewares).map Call.middleware ++
              [Call.proxy (first :: more)]) := by
  constructor
  · intro mode path state out hexact hsetup
    refine ⟨routeHandlers CreateHTTPHandler mwRegistry (first :: more), ?_, ?_⟩
    · rw [setupRoute_eq] at hsetup
      split_ifs at hsetup with hcond
      simp only [Option.some.injEq] at hsetup
      rw [← hsetup]
      simp [specRegexEntries, specExactRoutes, hexact]
    · exact runChain_middlewares mwRegistry
        ⟨Call.proxy (first :: more), CreateHTTPHandler (first :: more)⟩ first.Middlewares c
        hfresh hno
  · intro pattern
    simp [dispatchEntry, runMiddlewares_of_noneAborts mwRegistry first.Middlewares c hno]

/-- C7 at a concrete input: of `log`, `missing`, `log` the registry has `log`; it runs twice,
then the proxy handler, in the chain registered for the exact route `/a/1` and in the dispatch
to a regex entry with the same names. -/
theorem middleware_chain_order_witness :
    (∃ chain : List (ChainHandler (List String)),
        setupRoute ginTree goRegexp demoProxy "regex" demoRegistry
            (NewGinRouter Regex, freshRouter (List String) true)
            ("/a/1", [exactRule "http://backend-a" ["log", "missing", "log"]]) =
          some (NewGinRouter Regex,
            { freshRouter (List String) true with routes := [("/a/1", chain)] }) ∧
          runChain chain (demoRequest "/a/1") =
            (⟨"/a/1", "GET", false, [Output.text 200 "upstream"], ["log", "log", "proxy"]⟩,
              [Call.middleware "log", Call.middleware "log",
                Call.proxy [exactRule "http://backend-a" ["log", "missing", "log"]]])) ∧
      dispatchEntry demoProxy demoRegistry openEntry (demoRequest "/a/1") =
        (⟨"/a/1", "GET", false, [Output.text 200 "upstream"], ["log", "log", "proxy"]⟩,
          [Call.middleware "log", Call.middleware "log", Call.proxy openEntry.TargetRules]) := by
  have hsetup : setupRoute ginTree goRegexp demoProxy "regex" demoRegistry
      (NewGinRouter Regex, freshRouter (List String) true)
      ("/a/1", [exactRule "http://backend-a" ["log", "missing", "log"]]) =
      some (NewGinRouter Regex, { freshRouter (List String) true with
        routes := [("/a/1", routeHandlers demoProxy demoRegistry
          [exactRule "http://backend-a" ["log", "missing", "log"]])] }) := by
    rw [setupRoute_eq, if_pos ⟨by decide, Or.inr (by decide)⟩]
    rfl
  constructor
  · obtain ⟨chain, hout, hrun⟩ := (middleware_chain_order ginTree goRegexp demoProxy
      demoRegistry (exactRule "http://backend-a" ["log", "missing", "log"]) []
      (demoRequest "/a/1") rfl (by decide)).1 "regex" "/a/1" _ _ (by decide) hsetup
    exact ⟨chain, hsetup.trans (congrArg some hout), hrun⟩
  · exact (middleware_chain_order ginTree goRegexp demoProxy demoRegistry
      (regexRule "http://backend-a" ["log", "missing", "log"]) [] (demoRequest "/a/1") rfl
      (by decide)).2 patternA

/-! ### `Setup` and the routes it registers -/

/-- In the concrete route tree a request with one of the nine methods of `Any` for a path
that is registered resolves to the route registered under that path. -/
theorem ginResolve_registered (registered : List String) (method path : String)
    (hmethod : method ∈ anyMethods) (hpath : path ∈ registered) :
    ginTree.resolve registered method path = Resolution.route path := by
  simp [ginTree, ginResolve, findRoute, hmethod, hpath]

/-- In the concrete route tree a request with any other method finds no route, whatever its
path. -/
theorem ginResolve_other_method (registered : List String) (method path : String)
    (hmethod : method ∉ anyMethods) :
    ginTree.resolve registered method path = Resolution.miss := by
  simp [ginTree, ginResolve, hmethod]

/-- C8, as stated, fails: every path of this rule map has a rule and none is regex-flagged,
but gin rejects the path `/f/*`, `r.Any` panics, and `Setup` stops: the other path is not
left registered either. -/
theorem Setup_panics_counterexample :
    (∀ entry ∈ unnamedWildcardConfig.httpRules, entry.2 ≠ []) ∧
      unnamedWildcardConfig.Engine = "regex" ∧
      (Setup ginTree goRegexp (NewGinRouter Regex) (freshRouter (List String) true) demoProxy
        unnamedWildcardConfig demoRegistry).isSome = false := by
  decide

/-- C8, amended: in regex mode, when every path has at least one rule and gin accepts the
registration of every path that is not regex-flagged, `Setup` does not stop; the regex
entries it adds are one for each regex-flagged path whose anchored pattern compiles, carrying
the rules of the path, and the exact registrations it adds are one for each path that is not
regex-flagged, both in the order of iteration; a regex-flagged path whose pattern does not
compile contributes to neither. -/
theorem Setup_registers {σ R : Type} (gin : Gin) (re : Regexp R) (r : IRouter σ)
    (CreateHTTPHandler : RoutingRules → HandlerFunc σ) (cfg : Config)
    (mwRegistry : String → Option (HandlerFunc σ)) (hmode : cfg.Engine = "regex")
    (hrules : ∀ entry ∈ cfg.httpRules, entry.2 ≠ [])
    (haccepts : acceptsRoutes gin CreateHTTPHandler "regex" mwRegistry r.paths cfg.httpRules =
      true) :
    ∃ (gr : GinRouter R) (r1 : IRouter σ),
      Setup gin re (NewGinRouter R) r CreateHTTPHandler cfg mwRegistry = some (gr, r1) ∧
        gr.regexRoutes = specRegexEntries re "regex" cfg.httpRules ∧
        r1.routes = r.routes ++
          specExactRoutes CreateHTTPHandler "regex" mwRegistry cfg.httpRules := by
  obtain ⟨out, hout⟩ := Setup_of_accepts gin re r CreateHTTPHandler cfg mwRegistry hrules
    (by rw [hmode]; exact haccepts)
  have hspec := (Setup_of_some gin re r CreateHTTPHandler cfg mwRegistry out hout).1
  refine ⟨out.1, out.2, hout, ?_, ?_⟩
  · rw [hspec, hmode]
  · rw [hspec, hmode]

/-- C8, amended, at a concrete input: of the regex-flagged paths `/a.*` and `/b(`, the second
does not compile and is dropped; `/a/1` is registered as an exact route. -/
theorem Setup_registers_witness :
    ∃ (gr : GinRouter Regex) (r1 : IRouter (List String)),
      Setup ginTree goRegexp (NewGinRouter Regex) (freshRouter (List String) true) demoProxy
          mixedConfig demoRegistry = some (gr, r1) ∧
        gr.regexRoutes = specRegexEntries goRegexp "regex" mixedConfig.httpRules ∧
        r1.routes = (freshRouter (List String) true).routes ++
          specExactRoutes demoProxy "regex" demoRegistry mixedConfig.httpRules :=
  Setup_registers ginTree goRegexp (freshRouter (List String) true) demoProxy mixedConfig
    demoRegistry rfl (by decide) (by decide)

/-- The registrations of the concrete input of C8, computed. -/
theorem Setup_registers_example :
    specRegexEntries goRegexp "regex" mixedConfig.httpRules =
        [⟨patternA, [regexRule "http://backend-r" ["log"]]⟩] ∧
      (specExactRoutes demoProxy "regex" demoRegistry mixedConfig.httpRules).map Prod.fst =
        ["/a/1"] := by
  decide

/-- C6, as stated, fails: with no regex route configured `Setup` installs no `NoRoute`
handler, and a request for an unregistered path gets gin's plain-text 404, not a JSON body. -/
theorem not_found_json_counterexample :
    setupThenServe ginTree goRegexp demoProxy exactOnlyConfig demoRegistry
        (demoRequest "/zzz") =
      some (⟨"/zzz", "GET", false, [Output.text 404 "404 page not found"], []⟩, []) := by
  decide

/-- C6, amended: for a request on which nothing has been written, for which gin finds neither
a route nor a redirect to one, and whose path is matched by no registered regex entry, no
middleware and no proxy handler runs; the response is the JSON body with status 404 written by
`handleRegexMatch` when `Setup` registered at least one regex entry on a gin engine, and gin's
plain-text 404 otherwise. -/
theorem not_found_response {σ R : Type} (gin : Gin) (re : Regexp R) (isEngine : Bool)
    (CreateHTTPHandler : RoutingRules → HandlerFunc σ) (cfg : Config)
    (mwRegistry : String → Option (HandlerFunc σ)) (c : Context σ) (gr : GinRouter R)
    (r : IRouter σ)
    (hsetup : Setup gin re (NewGinRouter R) (freshRouter σ isEngine) CreateHTTPHandler cfg
      mwRegistry = some (gr, r))
    (hmiss : gin.resolve r.paths c.method c.requestPath = Resolution.miss)
    (hregex : ∀ e ∈ gr.regexRoutes, re.MatchString e.Pattern c.requestPath = false)
    (hfresh : c.written = []) :
    serve gin r c =
      (if !gr.regexRoutes.isEmpty && isEngine then
          { c with written := [Output.json 404 "error" 404] }
        else { c with written := [Output.text 404 "404 page not found"] }, []) := by
  have hout := (Setup_of_some gin re _ CreateHTTPHandler cfg mwRegistry _ hsetup).1
  simp only [Prod.mk.injEq] at hout
  obtain ⟨hgr, hr⟩ := hout
  subst hgr
  have hnone : (specRegexEntries re cfg.Engine cfg.httpRules).find?
      (fun e => re.MatchString e.Pattern c.requestPath) = none := by
    rw [List.find?_eq_none]
    intro e he
    simp [hregex e he]
  have hnoRoute : r.noRoute =
      if !(specRegexEntries re cfg.Engine cfg.httpRules).isEmpty && isEngine then
        some (handleRegexMatch re ⟨specRegexEntries re cfg.Engine cfg.httpRules⟩
          CreateHTTPHandler mwRegistry)
      else none := by
    rw [hr]
    rfl
  simp only [serve, hmiss, hnoRoute]
  by_cases hcond : (!(specRegexEntries re cfg.Engine cfg.httpRules).isEmpty && isEngine) = true
  · simp [hcond, handleRegexMatch, scanRegexRoutes_eq_find, hnone, Context.JSON, hfresh,
      StatusNotFound]
  · simp [hcond, hfresh, StatusNotFound, default404Body]

/-- C6, amended, at a concrete input: with the regex route `/a.*` registered, `/zzz` gets the
JSON 404. -/
theorem not_found_response_witness :
    setupThenServe ginTree goRegexp demoProxy mixedConfig demoRegistry (demoRequest "/zzz") =
      some (⟨"/zzz", "GET", false, [Output.json 404 "error" 404], []⟩, []) := by
  obtain ⟨out, hout⟩ := Setup_of_accepts ginTree goRegexp (freshRouter (List String) true)
    demoProxy mixedConfig demoRegistry (by decide) (by decide)
  have hspec := (Setup_of_some ginTree goRegexp _ demoProxy mixedConfig demoRegistry out hout).1
  have hserve := not_found_response ginTree goRegexp true demoProxy mixedConfig demoRegistry
    (demoRequest "/zzz") out.1 out.2 hout (by rw [hspec]; decide) (by rw [hspec]; decide) rfl
  simp only [setupThenServe, hout, Option.map_some', hserve]
  rw [hspec]
  decide

/-! ### The order of iteration over the rule map -/

theorem find_perm_unique {α : Type} (p : α → Bool) (l1 l2 : List α) (hperm : l1.Perm l2)
    (hunique : ∀ x ∈ l1, ∀ y ∈ l1, p x = true → p y = true → x = y) :
    l1.find? p = l2.find? p := by
  cases h1 : l1.find? p with
  | none =>
    symm
    rw [List.find?_eq_none] at h1 ⊢
    intro x hx
    exact h1 x (hperm.mem_iff.mpr hx)
  | some x =>
    have hx1 : x ∈ l1 := List.mem_of_find?_eq_some h1
    have hpx : p x = true := List.find?_some h1
    cases h2 : l2.find? p with
    | none =>
      rw [List.find?_eq_none] at h2
      exact absurd hpx (h2 x (hperm.mem_iff.mp hx1))
    | some y =>
      have hy2 : y ∈ l2 := List.mem_of_find?_eq_some h2
      have hpy : p y = true := List.find?_some h2
      rw [hunique x hx1 y (hperm.mem_iff.mpr hy2) hpx hpy]

/-- C9, as stated, fails: the two orders of one rule map with the overlapping regex routes
`/a.*` and `/ab.*` send the request `/abc` to different routes. -/
theorem iteration_order_counterexample :
    overlapRules.Perm overlapRulesSwapped ∧
      setupThenDispatch ginTree goRegexp demoProxy ⟨overlapRules, "regex", "", ""⟩ demoRegistry
          (demoRequest "/abc") = some [Call.proxy [regexRule "http://backend-1" []]] ∧
      setupThenDispatch ginTree goRegexp demoProxy ⟨overlapRulesSwapped, "regex", "", ""⟩
          demoRegistry
          (demoRequest "/abc") = some [Call.proxy [regexRule "http://backend-2" []]] := by
  refine ⟨List.Perm.swap _ _ _, ?_, ?_⟩ <;> decide

/-- C9, amended: for two orders of iteration over the same rule map, the regex entries
`Setup` builds are the same up to their order, and `handleRegexMatch` gives the same result
for every request whose path is matched by at most one of the registered entries. -/
theorem dispatch_order_independent {σ R : Type} (gin : Gin) (re : Regexp R)
    (CreateHTTPHandler : RoutingRules → HandlerFunc σ) (cfg : Config)
    (reordered : List (String × RoutingRules))
    (mwRegistry : String → Option (HandlerFunc σ)) (r : IRouter σ) (c : Context σ)
    (gr1 gr2 : GinRouter R) (r1 r2 : IRouter σ)
    (hperm : cfg.httpRules.Perm reordered)
    (hsetup1 : Setup gin re (NewGinRouter R) r CreateHTTPHandler cfg mwRegistry =
      some (gr1, r1))
    (hsetup2 : Setup gin re (NewGinRouter R) r CreateHTTPHandler
      { cfg with httpRules := reordered } mwRegistry = some (gr2, r2))
    (hunique : ∀ e1 ∈ gr1.regexRoutes, ∀ e2 ∈ gr1.regexRoutes,
      re.MatchString e1.Pattern c.requestPath = true →
      re.MatchString e2.Pattern c.requestPath = true → e1 = e2) :
    gr1.regexRoutes.Perm gr2.regexRoutes ∧
      handleRegexMatch re gr1 CreateHTTPHandler mwRegistry c =
        handleRegexMatch re gr2 CreateHTTPHandler mwRegistry c := by
  have hout1 := (Setup_of_some gin re r CreateHTTPHandler cfg mwRegistry _ hsetup1).1
  have hout2 := (Setup_of_some gin re r CreateHTTPHandler _ mwRegistry _ hsetup2).1
  simp only [Prod.mk.injEq] at hout1 hout2
  obtain ⟨hgr1, -⟩ := hout1
  obtain ⟨hgr2, -⟩ := hout2
  subst hgr1
  subst hgr2
  have hentries : (specRegexEntries re cfg.Engine cfg.httpRules).Perm
      (specRegexEntries re cfg.Engine reordered) := hperm.filterMap _
  refine ⟨hentries, ?_⟩
  simp only [handleRegexMatch, scanRegexRoutes_eq_find]
  rw [find_perm_unique _ _ _ hentries hunique]

/-- C9, amended, at a concrete input: only `/a.*` matches `/a/1`, in either order. -/
theorem dispatch_order_independent_witness :
    handleRegexMatch goRegexp ⟨specRegexEntries goRegexp "regex" overlapRules⟩ demoProxy
        demoRegistry (demoRequest "/a/1") =
      handleRegexMatch goRegexp ⟨specRegexEntries goRegexp "regex" overlapRulesSwapped⟩
        demoProxy demoRegistry (demoRequest "/a/1") :=
  (dispatch_order_independent ginTree goRegexp demoProxy ⟨overlapRules, "regex", "", ""⟩
    overlapRulesSwapped demoRegistry (freshRouter (List String) true) (demoRequest "/a/1")
    _ _ _ _ (List.Perm.swap _ _ _)
    (Setup_eq ginTree goRegexp _ demoProxy _ demoRegistry (by decide) (by decide))
    (Setup_eq ginTree goRegexp _ demoProxy _ demoRegistry (by decide) (by decide))
    (by decide)).2

/-! ### The matcher and the meaning of an expression -/

theorem subset_reach (f : Nat → List Nat) (n : Nat) : ∀ (start : List Nat) (x : Nat),
    x ∈ start → x ∈ reach f n start := by
  induction n with
  | zero => intro start x hx; exact hx
  | succ n ih =>
    intro start x hx
    exact ih _ x (List.mem_append_left _ hx)

theorem climb_mem_reach (f : Nat → List Nat) (n : Nat) : ∀ (start : List Nat) (x z k : Nat),
    x ∈ start → Climb f x z k → k ≤ n → z ∈ reach f n start := by
  induction n with
  | zero =>
    intro start x z k hx hc hk
    cases hc with
    | stay => exact hx
    | @move _ y _ k2 hy hlt hrest => omega
  | succ n ih =>
    intro start x z k hx hc hk
    cases hc with
    | stay => exact subset_reach f _ _ _ hx
    | @move _ y _ k2 hy hlt hrest =>
      refine ih _ y z k2 ?_ hrest (by omega)
      by_cases hmem : y ∈ start
      · exact List.mem_append_left _ hmem
      · apply List.mem_append_right
        rw [List.mem_filter]
        refine ⟨List.mem_flatMap.mpr ⟨x, hx, hy⟩, ?_⟩
        simpa using hmem

theorem reach_sound (f : Nat → List Nat) (n : Nat) : ∀ (start : List Nat) (z : Nat),
    z ∈ reach f n start → ∃ x ∈ start, Relation.ReflTransGen (fun a b => b ∈ f a) x z := by
  induction n with
  | zero => intro start z hz; exact ⟨z, hz, Relation.ReflTransGen.refl⟩
  | succ n ih =>
    intro start z hz
    obtain ⟨x, hx, hxz⟩ := ih _ z hz
    rcases List.mem_append.mp hx with hx | hx
    · exact ⟨x, hx, hxz⟩
    · rw [List.mem_filter, List.mem_flatMap] at hx
      obtain ⟨⟨w, hw, hwx⟩, -⟩ := hx
      exact ⟨w, hw, Relation.ReflTransGen.head hwx hxz⟩

theorem climb_bound (f : Nat → List Nat) (x z k : Nat) (h : Climb f x z k) : x + k ≤ z := by
  induction h with
  | stay => omega
  | move x y z k hy hlt hrest ih => omega

theorem climb_le (f : Nat → List Nat) (bound : Nat)
    (hf : ∀ x y, y ∈ f x → x ≤ y ∧ (y = x ∨ y ≤ bound)) (x z k : Nat) (h : Climb f x z k) :
    x ≤ bound → z ≤ bound := by
  induction h with
  | stay => exact id
  | move x y z k hy hlt hrest ih =>
    intro _
    apply ih
    rcases (hf x y hy).2 with heq | hle
    · omega
    · exact hle

theorem climb_of_chain (f : Nat → List Nat) (bound : Nat)
    (hf : ∀ x y, y ∈ f x → x ≤ y ∧ (y = x ∨ y ≤ bound)) (x z : Nat)
    (h : Relation.ReflTransGen (fun a b => b ∈ f a) x z) :
    ∃ k, Climb f x z k ∧ k ≤ bound := by
  induction h using Relation.ReflTransGen.head_induction_on with
  | refl => exact ⟨0, Climb.stay z, Nat.zero_le _⟩
  | @head a b hy _ ih =>
    obtain ⟨k, hk, hkb⟩ := ih
    rcases (hf a b hy).2 with heq | hle
    · subst heq
      exact ⟨k, hk, hkb⟩
    · by_cases hab : b = a
      · subst hab
        exact ⟨k, hk, hkb⟩
      · have hlt : a < b := by have := (hf a b hy).1; omega
        refine ⟨k + 1, Climb.move a b z k hy hlt hk, ?_⟩
        have h1 := climb_bound f b z k hk
        have h2 := climb_le f bound hf b z k hk hle
        omega

theorem chain_le (f : Nat → List Nat) (bound : Nat)
    (hf : ∀ x y, y ∈ f x → x ≤ y ∧ (y = x ∨ y ≤ bound)) (x z : Nat)
    (h : Relation.ReflTransGen (fun a b => b ∈ f a) x z) : x ≤ z ∧ (z = x ∨ z ≤ bound) := by
  induction h with
  | refl => exact ⟨le_refl _, Or.inl rfl⟩
  | @tail b c _ hstep ih =>
    have hbc := hf b c hstep
    constructor
    · omega
    · rcases hbc.2 with heq | hle
      · rcases ih.2 with h1 | h1
        · left; omega
        · right; omega
      · exact Or.inr hle

theorem get_lt_length (s : List Char) (i : Nat) (d : Char) (h : s.get? i = some d) :
    i < s.length := by
  by_contra hge
  rw [List.get?_eq_none.mpr (by omega)] at h
  exact absurd h (by simp)

theorem mem_ends_lit (s : List Char) (c : Char) (i j : Nat) :
    j ∈ (Regex.lit c).ends s i ↔ s.get? i = some c ∧ j = i + 1 := by
  unfold Regex.ends
  by_cases hc : s.get? i = some c
  · rw [if_pos hc]
    simp only [List.mem_singleton]
    exact ⟨fun h => ⟨hc, h⟩, fun h => h.2⟩
  · rw [if_neg hc]
    simp only [List.not_mem_nil, false_iff]
    exact fun h => hc h.1

theorem mem_ends_any (s : List Char) (i j : Nat) :
    j ∈ Regex.any.ends s i ↔ ∃ d, s.get? i = some d ∧ d ≠ '\n' ∧ j = i + 1 := by
  unfold Regex.ends
  cases hg : s.get? i with
  | none => simp
  | some d =>
    by_cases hd : d = '\n'
    · simp [hd]
    · simp [hd]

theorem mem_ends_cls (s : List Char) (negated : Bool) (ranges : List (Char × Char))
    (i j : Nat) :
    j ∈ (Regex.cls negated ranges).ends s i ↔
      ∃ d, s.get? i = some d ∧ (inRanges d ranges != negated) = true ∧ j = i + 1 := by
  unfold Regex.ends
  cases hg : s.get? i with
  | none => simp
  | some d =>
    by_cases hd : (inRanges d ranges != negated) = true
    · simp only [hd, if_true, List.mem_singleton]
      constructor
      · intro h; exact ⟨d, rfl, hd, h⟩
      · rintro ⟨_, _, _, h⟩; exact h
    · simp only [hd, Bool.false_eq_true, if_false, List.not_mem_nil, false_iff]
      rintro ⟨e, he, hr, _⟩
      simp only [Option.some.injEq] at he
      subst he
      exact hd hr

theorem mem_ends_bol (s : List Char) (i j : Nat) :
    j ∈ Regex.bol.ends s i ↔ i = 0 ∧ j = 0 := by
  unfold Regex.ends
  by_cases h0 : i = 0
  · simp [h0]
  · simp [h0]

theorem mem_ends_eol (s : List Char) (i j : Nat) :
    j ∈ Regex.eol.ends s i ↔ i = s.length ∧ j = s.length := by
  unfold Regex.ends
  by_cases h0 : i = s.length
  · simp [h0]
  · simp [h0]

theorem ends_bounds (s : List Char) (r : Regex) : ∀ i j : Nat,
    j ∈ r.ends s i → i ≤ j ∧ (j = i ∨ j ≤ s.length) := by
  induction r with
  | empty => intro i j h; simp [Regex.ends] at h; subst h; exact ⟨le_refl _, Or.inl rfl⟩
  | lit c =>
    intro i j h
    obtain ⟨hc, hj⟩ := (mem_ends_lit s c i j).mp h
    have := get_lt_length s i c hc
    omega
  | any =>
    intro i j h
    obtain ⟨d, hc, -, hj⟩ := (mem_ends_any s i j).mp h
    have := get_lt_length s i d hc
    omega
  | cls negated ranges =>
    intro i j h
    obtain ⟨d, hc, -, hj⟩ := (mem_ends_cls s negated ranges i j).mp h
    have := get_lt_length s i d hc
    omega
  | bol =>
    intro i j h
    obtain ⟨h0, hj⟩ := (mem_ends_bol s i j).mp h
    omega
  | eol =>
    intro i j h
    obtain ⟨h0, hj⟩ := (mem_ends_eol s i j).mp h
    omega
  | cat a b iha ihb =>
    intro i j h
    simp only [Regex.ends, List.mem_flatMap] at h
    obtain ⟨m, hm, hj⟩ := h
    have h1 := iha i m hm
    have h2 := ihb m j hj
    omega
  | alt a b iha ihb =>
    intro i j h
    simp only [Regex.ends, List.mem_append] at h
    rcases h with h | h
    · exact iha i j h
    · exact ihb i j h
  | grp a iha => intro i j h; exact iha i j h
  | star a iha =>
    intro i j h
    simp only [Regex.ends] at h
    obtain ⟨x, hx, hxz⟩ := reach_sound _ _ _ _ h
    simp only [List.mem_singleton] at hx
    subst hx
    exact chain_le (a.ends s) s.length (fun x y hy => iha x y hy) _ _ hxz
  | plus a iha =>
    intro i j h
    simp only [Regex.ends, List.mem_flatMap] at h
    obtain ⟨m, hm, hj⟩ := h
    obtain ⟨x, hx, hxz⟩ := reach_sound _ _ _ _ hj
    simp only [List.mem_singleton] at hx
    subst hx
    have h1 := iha i x hm
    have h2 := chain_le (a.ends s) s.length (fun x y hy => iha x y hy) _ _ hxz
    omega
  | opt a iha =>
    intro i j h
    simp only [Regex.ends, List.mem_cons] at h
    rcases h with h | h
    · subst h; exact ⟨le_refl _, Or.inl rfl⟩
    · exact iha i j h

theorem star_of_chain (s : List Char) (a : Regex)
    (ha : ∀ i j, j ∈ a.ends s i → Matches s a i j) (x z : Nat)
    (h : Relation.ReflTransGen (fun p q => q ∈ a.ends s p) x z) : Matches s (.star a) x z := by
  induction h using Relation.ReflTransGen.head_induction_on with
  | refl => exact Matches.starNil a z
  | @head p q hy _ ih => exact Matches.starStep a p q z (ha p q hy) ih

theorem matches_of_mem_ends (s : List Char) (r : Regex) : ∀ i j : Nat,
    j ∈ r.ends s i → Matches s r i j := by
  induction r with
  | empty => intro i j h; simp [Regex.ends] at h; subst h; exact Matches.empty _
  | lit c =>
    intro i j h
    obtain ⟨hc, hj⟩ := (mem_ends_lit s c i j).mp h
    subst hj
    exact Matches.lit c i hc
  | any =>
    intro i j h
    obtain ⟨d, hc, hd, hj⟩ := (mem_ends_any s i j).mp h
    subst hj
    exact Matches.any d i hc hd
  | cls negated ranges =>
    intro i j h
    obtain ⟨d, hc, hd, hj⟩ := (mem_ends_cls s negated ranges i j).mp h
    subst hj
    exact Matches.cls negated ranges d i hc hd
  | bol =>
    intro i j h
    obtain ⟨h0, hj⟩ := (mem_ends_bol s i j).mp h
    subst h0; subst hj
    exact Matches.bol
  | eol =>
    intro i j h
    obtain ⟨h0, hj⟩ := (mem_ends_eol s i j).mp h
    subst h0; subst hj
    exact Matches.eol
  | cat a b iha ihb =>
    intro i j h
    simp only [Regex.ends, List.mem_flatMap] at h
    obtain ⟨m, hm, hj⟩ := h
    exact Matches.cat a b i m j (iha i m hm) (ihb m j hj)
  | alt a b iha ihb =>
    intro i j h
    simp only [Regex.ends, List.mem_append] at h
    rcases h with h | h
    · exact Matches.altLeft a b i j (iha i j h)
    · exact Matches.altRight a b i j (ihb i j h)
  | grp a iha => intro i j h; exact Matches.grp a i j (iha i j h)
  | star a iha =>
    intro i j h
    simp only [Regex.ends] at h
    obtain ⟨x, hx, hxz⟩ := reach_sound _ _ _ _ h
    simp only [List.mem_singleton] at hx
    subst hx
    exact star_of_chain s a iha _ _ hxz
  | plus a iha =>
    intro i j h
    simp only [Regex.ends, List.mem_flatMap] at h
    obtain ⟨m, hm, hj⟩ := h
    obtain ⟨x, hx, hxz⟩ := reach_sound _ _ _ _ hj
    simp only [List.mem_singleton] at hx
    subst hx
    exact Matches.plus a i x j (iha i x hm) (star_of_chain s a iha _ _ hxz)
  | opt a iha =>
    intro i j h
    simp only [Regex.ends, List.mem_cons] at h
    rcases h with h | h
    · subst h; exact Matches.optNone a j
    · exact Matches.optSome a i j (iha i j h)

theorem mem_reach_of_step (s : List Char) (a : Regex) (i j k : Nat) (hj : j ∈ a.ends s i)
    (hk : k ∈ reach (a.ends s) (s.length + 1) [j]) :
    k ∈ reach (a.ends s) (s.length + 1) [i] := by
  obtain ⟨x, hx, hxz⟩ := reach_sound _ _ _ _ hk
  simp only [List.mem_singleton] at hx
  subst hx
  obtain ⟨m, hm, hmb⟩ := climb_of_chain (a.ends s) s.length (ends_bounds s a) i k
    (Relation.ReflTransGen.head hj hxz)
  exact climb_mem_reach _ _ _ i k m (by simp) hm (by omega)

theorem mem_ends_of_matches (s : List Char) (r : Regex) (i j : Nat) (h : Matches s r i j) :
    j ∈ r.ends s i := by
  induction h with
  | empty i => simp [Regex.ends]
  | lit c i h => exact (mem_ends_lit s c i _).mpr ⟨h, rfl⟩
  | any d i h hd => exact (mem_ends_any s i _).mpr ⟨d, h, hd, rfl⟩
  | cls negated ranges d i h hd => exact (mem_ends_cls s negated ranges i _).mpr ⟨d, h, hd, rfl⟩
  | bol => exact (mem_ends_bol s 0 0).mpr ⟨rfl, rfl⟩
  | eol => exact (mem_ends_eol s _ _).mpr ⟨rfl, rfl⟩
  | cat a b i j k _ _ iha ihb =>
    simp only [Regex.ends, List.mem_flatMap]
    exact ⟨j, iha, ihb⟩
  | altLeft a b i j _ iha => simp [Regex.ends, iha]
  | altRight a b i j _ ihb => simp [Regex.ends, ihb]
  | grp a i j _ iha => exact iha
  | starNil a i => exact subset_reach _ _ _ _ (by simp)
  | starStep a i j k _ _ iha ihrest => exact mem_reach_of_step s a i j k iha ihrest
  | plus a i j k _ _ iha ihrest =>
    simp only [Regex.ends, List.mem_flatMap]
    exact ⟨j, iha, ihrest⟩
  | optNone a i => simp [Regex.ends]
  | optSome a i j _ iha => simp [Regex.ends, iha]

/-- The matcher computes the meaning of an expression. -/
theorem mem_ends_iff (s : List Char) (r : Regex) (i j : Nat) :
    j ∈ r.ends s i ↔ Matches s r i j :=
  ⟨matches_of_mem_ends s r i j, mem_ends_of_matches s r i j⟩

theorem fullMatch_iff (s : List Char) (r : Regex) :
    r.fullMatch s = true ↔ Matches s r 0 s.length := by
  simp [Regex.fullMatch, mem_ends_iff]

theorem matchString_iff (s : List Char) (r : Regex) :
    r.matchString s = true ↔ ∃ i j, i ≤ s.length ∧ Matches s r i j := by
  simp only [Regex.matchString, List.any_eq_true, List.mem_range, Bool.not_eq_true',
    List.isEmpty_eq_false]
  constructor
  · rintro ⟨i, hi, hne⟩
    obtain ⟨j, hj⟩ := List.exists_mem_of_ne_nil _ hne
    exact ⟨i, j, by omega, (mem_ends_iff s r i j).mp hj⟩
  · rintro ⟨i, j, hi, hm⟩
    exact ⟨i, by omega, List.ne_nil_of_mem ((mem_ends_iff s r i j).mpr hm)⟩

/-! ### The anchoring of regex routes -/

theorem addBol_cur_cons (f : Frame) (r : Regex) :
    addBol { f with cur := r :: f.cur } = { addBol f with cur := r :: (addBol f).cur } := by
  cases f with
  | mk alts cur => cases alts <;> simp [addBol]

theorem pushPiece_anchor (r : Regex) (fs gs : List Frame) (h : pushPiece r fs = some gs) :
    pushPiece r (anchorBottom fs) = some (anchorBottom gs) := by
  match fs, h with
  | [f], h =>
    simp only [pushPiece, Option.some.injEq] at h
    subst h
    simp [anchorBottom, pushPiece, addBol_cur_cons]
  | f :: g :: rest, h =>
    simp only [pushPiece, Option.some.injEq] at h
    subst h
    simp [anchorBottom, pushPiece]

theorem repeatLast_anchor (k : Regex → Regex) (fs gs : List Frame) (h : repeatLast k fs = some gs) :
    repeatLast k (anchorBottom fs) = some (anchorBottom gs) := by
  match fs, h with
  | [⟨alts, cur⟩], h =>
    cases cur with
    | nil => simp [repeatLast] at h
    | cons r rs =>
      by_cases hr : r.isRepeat = true
      · simp [repeatLast, hr] at h
      · simp only [repeatLast, hr, Bool.false_eq_true, if_false, Option.some.injEq] at h
        subst h
        cases alts <;> simp [anchorBottom, repeatLast, addBol, hr]
  | ⟨alts, cur⟩ :: g :: rest, h =>
    cases cur with
    | nil => simp [repeatLast] at h
    | cons r rs =>
      by_cases hr : r.isRepeat = true
      · simp [repeatLast, hr] at h
      · simp only [repeatLast, hr, Bool.false_eq_true, if_false, Option.some.injEq] at h
        subst h
        simp [anchorBottom, repeatLast, hr]

theorem newAlt_anchor (fs gs : List Frame) (h : newAlt fs = some gs) :
    newAlt (anchorBottom fs) = some (anchorBottom gs) := by
  match fs, h with
  | [⟨alts, cur⟩], h =>
    simp only [newAlt, Option.some.injEq] at h
    subst h
    cases alts <;> simp [anchorBottom, newAlt, addBol, mkCat]
  | f :: g :: rest, h =>
    simp only [newAlt, Option.some.injEq] at h
    subst h
    simp [anchorBottom, newAlt]

theorem closeGroup_anchor (fs gs : List Frame) (h : closeGroup fs = some gs) :
    closeGroup (anchorBottom fs) = some (anchorBottom gs) := by
  match fs, h with
  | [f, g], h =>
    simp only [closeGroup, Option.some.injEq] at h
    subst h
    simp [anchorBottom, closeGroup, addBol_cur_cons]
  | f :: g :: g2 :: rest, h =>
    simp only [closeGroup, Option.some.injEq] at h
    subst h
    simp [anchorBottom, closeGroup]

theorem anchorBottom_cons (f : Frame) (fs : List Frame) (h : fs ≠ []) :
    anchorBottom (f :: fs) = f :: anchorBottom fs := by
  cases fs with
  | nil => exact absurd rfl h
  | cons g rest => rfl

theorem map_anchor {op : List Frame → Option (List Frame)} {fs : List Frame} {m : Mode}
    {st : PState}
    (hop : ∀ gs, op fs = some gs → op (anchorBottom fs) = some (anchorBottom gs))
    (h : (op fs).map (⟨·, m⟩) = some st) :
    (op (anchorBottom fs)).map (⟨·, m⟩) = some st.anchored := by
  cases hf : op fs with
  | none => simp [hf] at h
  | some gs =>
    simp only [hf, Option.map_some', Option.some.injEq] at h
    subst h
    simp [hop gs hf, PState.anchored]

theorem stepNormal_anchor (fs : List Frame) (hne : fs ≠ []) (c : Char) (st : PState)
    (h : stepNormal fs c = some st) :
    stepNormal (anchorBottom fs) c = some st.anchored := by
  unfold stepNormal at h ⊢
  generalize tokenOf c = t at h ⊢
  cases t with
  | backslash => simp only [Option.some.injEq] at h; subst h; rfl
  | lparen =>
    simp only [Option.some.injEq] at h; subst h
    simp [PState.anchored, anchorBottom_cons _ _ hne]
  | rparen => exact map_anchor (closeGroup_anchor fs) h
  | bar => exact map_anchor (newAlt_anchor fs) h
  | star => exact map_anchor (repeatLast_anchor _ fs) h
  | plus => exact map_anchor (repeatLast_anchor _ fs) h
  | quest => exact map_anchor (repeatLast_anchor _ fs) h
  | lbracket => simp only [Option.some.injEq] at h; subst h; rfl
  | unsupported => exact absurd h (by simp)
  | dot => exact map_anchor (pushPiece_anchor _ fs) h
  | caret => exact map_anchor (pushPiece_anchor _ fs) h
  | dollar => exact map_anchor (pushPiece_anchor _ fs) h
  | literal d => exact map_anchor (pushPiece_anchor _ fs) h

theorem stepClass_anchor (fs : List Frame) (negated : Bool) (done : List (Char × Char))
    (pending : Option Char) (dash : Bool) (c : Char) (st : PState)
    (h : stepClass fs negated done pending dash c = some st) :
    stepClass (anchorBottom fs) negated done pending dash c = some st.anchored := by
  unfold stepClass at h ⊢
  generalize classTokenOf c = t at h ⊢
  cases t with
  | unsupported => exact absurd h (by simp)
  | close =>
    cases pending <;> cases dash <;> simp only [] at h ⊢
    · split_ifs at h ⊢ with hd
      exact map_anchor (pushPiece_anchor _ fs) h
    · exact absurd h (by simp)
    · exact map_anchor (pushPiece_anchor _ fs) h
    · exact absurd h (by simp)
  | dash =>
    cases pending <;> cases dash <;> simp only [Option.some.injEq] at h ⊢ <;>
      first
        | exact absurd h (by simp)
        | (subst h; rfl)
  | item d =>
    cases pending <;> cases dash <;> simp only [Option.some.injEq] at h ⊢ <;>
      first
        | (subst h; rfl)
        | (split_ifs at h ⊢ with hd
           simp only [Option.some.injEq] at h; subst h; rfl)

theorem step_anchor (st : PState) (hne : st.frames ≠ []) (c : Char) (st2 : PState)
    (h : step st c = some st2) : step st.anchored c = some st2.anchored := by
  obtain ⟨fs, m⟩ := st
  unfold step at h ⊢
  simp only [PState.anchored] at h ⊢
  cases m with
  | normal => exact stepNormal_anchor fs hne c st2 h
  | groupOpen =>
    simp only [] at h ⊢
    split_ifs at h ⊢ with hq
    exact stepNormal_anchor fs hne c st2 h
  | escape =>
    simp only [] at h ⊢
    split_ifs at h ⊢ with hq
    exact map_anchor (pushPiece_anchor _ fs) h
  | clsOpen =>
    simp only [] at h ⊢
    split_ifs at h ⊢ with hq
    · simp only [Option.some.injEq] at h; subst h; rfl
    · exact stepClass_anchor fs _ _ _ _ c st2 h
  | clsItems negated done pending dash => exact stepClass_anchor fs _ _ _ _ c st2 h

theorem pushPiece_ne (r : Regex) (fs gs : List Frame) (h : pushPiece r fs = some gs) : gs ≠ [] := by
  cases fs with
  | nil => simp [pushPiece] at h
  | cons f rest => simp only [pushPiece, Option.some.injEq] at h; subst h; simp

theorem repeatLast_ne (k : Regex → Regex) (fs gs : List Frame) (h : repeatLast k fs = some gs) :
    gs ≠ [] := by
  cases fs with
  | nil => simp [repeatLast] at h
  | cons f rest =>
    cases hc : f.cur with
    | nil => simp [repeatLast, hc] at h
    | cons r rs =>
      simp only [repeatLast, hc] at h
      split_ifs at h
      simp only [Option.some.injEq] at h; subst h; simp

theorem newAlt_ne (fs gs : List Frame) (h : newAlt fs = some gs) : gs ≠ [] := by
  cases fs with
  | nil => simp [newAlt] at h
  | cons f rest => simp only [newAlt, Option.some.injEq] at h; subst h; simp

theorem closeGroup_ne (fs gs : List Frame) (h : closeGroup fs = some gs) : gs ≠ [] := by
  match fs, h with
  | f :: g :: rest, h => simp only [closeGroup, Option.some.injEq] at h; subst h; simp

theorem map_ne {op : List Frame → Option (List Frame)} {fs : List Frame} {m : Mode}
    {st : PState} (hop : ∀ gs, op fs = some gs → gs ≠ [])
    (h : (op fs).map (⟨·, m⟩) = some st) : st.frames ≠ [] := by
  cases hf : op fs with
  | none => simp [hf] at h
  | some gs =>
    simp only [hf, Option.map_some', Option.some.injEq] at h
    subst h
    exact hop gs hf

theorem stepNormal_ne (fs : List Frame) (hne : fs ≠ []) (c : Char) (st : PState)
    (h : stepNormal fs c = some st) : st.frames ≠ [] := by
  unfold stepNormal at h
  generalize tokenOf c = t at h
  cases t with
  | backslash => simp only [Option.some.injEq] at h; subst h; exact hne
  | lparen => simp only [Option.some.injEq] at h; subst h; simp
  | rparen => exact map_ne (closeGroup_ne fs) h
  | bar => exact map_ne (newAlt_ne fs) h
  | star => exact map_ne (repeatLast_ne _ fs) h
  | plus => exact map_ne (repeatLast_ne _ fs) h
  | quest => exact map_ne (repeatLast_ne _ fs) h
  | lbracket => simp only [Option.some.injEq] at h; subst h; exact hne
  | unsupported => exact absurd h (by simp)
  | dot => exact map_ne (pushPiece_ne _ fs) h
  | caret => exact map_ne (pushPiece_ne _ fs) h
  | dollar => exact map_ne (pushPiece_ne _ fs) h
  | literal d => exact map_ne (pushPiece_ne _ fs) h

theorem stepClass_ne (fs : List Frame) (hne : fs ≠ []) (negated : Bool)
    (done : List (Char × Char)) (pending : Option Char) (dash : Bool) (c : Char) (st : PState)
    (h : stepClass fs negated done pending dash c = some st) : st.frames ≠ [] := by
  unfold stepClass at h
  generalize classTokenOf c = t at h
  cases t with
  | unsupported => exact absurd h (by simp)
  | close =>
    cases pending <;> cases dash <;> simp only [] at h
    · split_ifs at h with hd
      exact map_ne (pushPiece_ne _ fs) h
    · exact absurd h (by simp)
    · exact map_ne (pushPiece_ne _ fs) h
    · exact absurd h (by simp)
  | dash =>
    cases pending <;> cases dash <;> simp only [Option.some.injEq] at h <;>
      first
        | exact absurd h (by simp)
        | (subst h; exact hne)
  | item d =>
    cases pending <;> cases dash <;> simp only [Option.some.injEq] at h <;>
      first
        | (subst h; exact hne)
        | (split_ifs at h with hd
           simp only [Option.some.injEq] at h; subst h; exact hne)

theorem step_ne (st : PState) (hne : st.frames ≠ []) (c : Char) (st2 : PState)
    (h : step st c = some st2) : st2.frames ≠ [] := by
  obtain ⟨fs, m⟩ := st
  unfold step at h
  cases m with
  | normal => exact stepNormal_ne fs hne c st2 h
  | groupOpen =>
    simp only [] at h
    split_ifs at h with hq
    exact stepNormal_ne fs hne c st2 h
  | escape =>
    simp only [] at h
    split_ifs at h with hq
    exact map_ne (pushPiece_ne _ fs) h
  | clsOpen =>
    simp only [] at h
    split_ifs at h with hq
    · simp only [Option.some.injEq] at h; subst h; exact hne
    · exact stepClass_ne fs hne _ _ _ _ c st2 h
  | clsItems negated done pending dash => exact stepClass_ne fs hne _ _ _ _ c st2 h

theorem run_anchor (cs : List Char) : ∀ (st st2 : PState), st.frames ≠ [] →
    run st cs = some st2 → run st.anchored cs = some st2.anchored ∧ st2.frames ≠ [] := by
  induction cs with
  | nil =>
    intro st st2 hne h
    simp only [run, Option.some.injEq] at h
    subst h
    exact ⟨rfl, hne⟩
  | cons c rest ih =>
    intro st st2 hne h
    simp only [run] at h ⊢
    cases hs : step st c with
    | none => simp [hs] at h
    | some next =>
      simp only [hs] at h
      rw [step_anchor st hne c next hs]
      exact ih next st2 (step_ne st hne c next hs) h

theorem run_append (cs ds : List Char) : ∀ st : PState,
    run st (cs ++ ds) = (run st cs).bind fun mid => run mid ds := by
  induction cs with
  | nil => intro st; rfl
  | cons c rest ih =>
    intro st
    simp only [List.cons_append, run]
    cases step st c with
    | none => rfl
    | some next => exact ih next

theorem finish_eq_some (st : PState) (r : Regex) (h : finish st = some r) :
    ∃ f : Frame, st = ⟨[f], .normal⟩ ∧ r = f.toRegex := by
  obtain ⟨fs, m⟩ := st
  unfold finish at h
  split at h
  · rename_i f hm hf
    simp only [Option.some.injEq] at h
    simp only at hm hf
    subst hm hf
    exact ⟨f, rfl, h.symm⟩
  · exact absurd h (by simp)

theorem toRegex_not_alt (f : Frame) (h : ∀ a b, f.toRegex ≠ .alt a b) :
    f.alts = [] ∧ f.toRegex = mkCat f.cur.reverse := by
  obtain ⟨alts, cur⟩ := f
  cases alts with
  | nil => exact ⟨rfl, rfl⟩
  | cons a rest =>
    exfalso
    cases rest with
    | nil => exact h a _ rfl
    | cons b rest2 =>
      cases hr : rest2 ++ [mkCat cur.reverse] with
      | nil => simp at hr
      | cons x xs => exact h a (mkAlt (b :: x :: xs)) (by simp [Frame.toRegex, mkAlt, hr])

theorem step_start_caret : step start '^' = some start.anchored := by decide

theorem compile_anchored (p : String) (r : Regex) (h : compile p = some r)
    (hna : ∀ a b, r ≠ .alt a b) :
    ∃ ps : List Regex, r = mkCat ps ∧
      compile ("^" ++ p ++ "$") = some (mkCat (Regex.bol :: ps ++ [Regex.eol])) := by
  unfold compile at h
  cases hrun : run start p.data with
  | none => simp [hrun] at h
  | some st =>
    simp only [hrun] at h
    obtain ⟨f, hst, hr⟩ := finish_eq_some st r h
    subst hst
    subst hr
    obtain ⟨halts, hre⟩ := toRegex_not_alt f hna
    refine ⟨f.cur.reverse, hre, ?_⟩
    have hanch := (run_anchor p.data start _ (by simp [start]) hrun).1
    have hdata : ("^" ++ p ++ "$").data = '^' :: (p.data ++ ['$']) := by
      simp [String.data_append]
    unfold compile
    rw [hdata]
    simp only [run, step_start_caret, run_append, hanch, Option.some_bind]
    obtain ⟨alts, cur⟩ := f
    simp only at halts
    subst halts
    have hdollar : tokenOf '$' = Token.dollar := by decide
    simp [PState.anchored, anchorBottom, addBol, step, stepNormal, hdollar, pushPiece, finish,
      Frame.toRegex, mkAlt]

theorem ends_mkCat_append (s : List Char) (ps qs : List Regex) : ∀ i : Nat,
    (mkCat (ps ++ qs)).ends s i = ((mkCat ps).ends s i).flatMap ((mkCat qs).ends s) := by
  induction ps with
  | nil => intro i; simp [mkCat, Regex.ends]
  | cons a rest ih =>
    intro i
    simp only [List.cons_append, mkCat, Regex.ends, List.flatMap_assoc]
    congr 1
    funext j
    exact ih j

theorem matchString_anchored (ps : List Regex) (s : List Char) :
    (mkCat (Regex.bol :: ps ++ [Regex.eol])).matchString s = (mkCat ps).fullMatch s := by
  rw [Bool.eq_iff_iff]
  have hcat : ∀ i, (mkCat (Regex.bol :: ps ++ [Regex.eol])).ends s i =
      if i = 0 then ((mkCat ps).ends s 0).flatMap
        (fun j => if j = s.length then [j] else []) else [] := by
    intro i
    have hlast : (mkCat [Regex.eol]).ends s = fun j => if j = s.length then [j] else [] := by
      funext j
      by_cases hj : j = s.length <;> simp [mkCat, Regex.ends, hj]
    simp only [List.cons_append, mkCat, Regex.ends]
    by_cases hi : i = 0
    · subst hi
      simp [ends_mkCat_append, hlast]
    · simp [hi]
  simp only [Regex.matchString, Regex.fullMatch, List.any_eq_true, List.mem_range, hcat,
    decide_eq_true_eq]
  constructor
  · rintro ⟨i, -, hi⟩
    by_cases h0 : i = 0
    · simp only [h0, if_true] at hi
      cases hl : ((mkCat ps).ends s 0).flatMap (fun j => if j = s.length then [j] else []) with
      | nil => simp [hl] at hi
      | cons x xs =>
        have hx : x ∈ ((mkCat ps).ends s 0).flatMap
            (fun j => if j = s.length then [j] else []) := by simp [hl]
        rw [List.mem_flatMap] at hx
        obtain ⟨j, hj, hxj⟩ := hx
        by_cases hjl : j = s.length
        · exact hjl ▸ hj
        · simp [hjl] at hxj
    · simp [h0] at hi
  · intro h
    refine ⟨0, by omega, ?_⟩
    simp only [if_true]
    have hx : s.length ∈ ((mkCat ps).ends s 0).flatMap
        (fun j => if j = s.length then [j] else []) :=
      List.mem_flatMap.mpr ⟨s.length, h, by simp⟩
    cases hl : ((mkCat ps).ends s 0).flatMap (fun j => if j = s.length then [j] else []) with
    | nil => simp [hl] at hx
    | cons x xs => rfl

theorem registeredMatches_eq (pattern path : String) :
    registeredMatches pattern path =
      match compile ("^" ++ pattern ++ "$") with
      | some r => r.matchString path.data
      | none => false := by
  unfold registeredMatches
  rw [Setup_eq ginTree goRegexp _ _ _ _ (by simp) (by simp [acceptsRoutes, isRegexRoute])]
  cases hc : compile ("^" ++ pattern ++ "$") with
  | none => simp [specRegexEntries, isRegexRoute, goRegexp, hc]
  | some r => simp [specRegexEntries, isRegexRoute, goRegexp, hc]

/-- Where the anchoring of `Setup` does what it is meant to do: for a route pattern that
compiles on its own and is not an alternation at its top level, the registered entry matches a
path exactly when the pattern matches the whole of the path. -/
theorem anchoring_without_alternation (pattern path : String) (r : Regex)
    (h : compile pattern = some r) (hna : ∀ a b, r ≠ .alt a b) :
    registeredMatches pattern path = r.fullMatch path.data := by
  obtain ⟨ps, hr, hc⟩ := compile_anchored pattern r h hna
  subst hr
  rw [registeredMatches_eq, hc]
  exact matchString_anchored ps path.data

/-- The same, with the meaning of the route pattern in place of the matcher. -/
theorem anchoring_whole_path (pattern path : String) (r : Regex)
    (h : compile pattern = some r) (hna : ∀ a b, r ≠ .alt a b) :
    registeredMatches pattern path = true ↔ Matches path.data r 0 path.data.length := by
  rw [anchoring_without_alternation pattern path r h hna]
  exact fullMatch_iff path.data r

/-- The rule `/api/v[0-9]+` matches `/api/v1` and does not match `/api/v1/extra`. -/
theorem anchoring_example :
    registeredMatches "/api/v[0-9]+" "/api/v1" = true ∧
      registeredMatches "/api/v[0-9]+" "/api/v1/extra" = false := by
  decide

/-- C3 fails on the code: for the regex route `/a|/b` the pattern `Setup` compiles is
`^/a|/b$`, in which `^` belongs to the first alternative and `$` to the second; the registered
entry matches `/a/extra`, of which `/a` is a proper beginning, while the route pattern does
not match the whole of `/a/extra`. -/
theorem anchoring_alternation_failure :
    registeredMatches "/a|/b" "/a/extra" = true ∧ wholeMatch "/a|/b" "/a/extra" = some false ∧
      compile ("^" ++ "/a|/b" ++ "$") =
        some (.alt (mkCat [.bol, .lit '/', .lit 'a']) (mkCat [.lit '/', .lit 'b', .eol])) := by
  decide

/-- C1: for an algorithm string outside the six recognised names `NewLoadBalancer` returns a
nil balancer and the error `unknown load balancer algorithm: <algorithm>`; for each of the
five recognised names other than `consul` it returns a balancer and a nil error. -/
theorem NewLoadBalancer_contract {LB : Type} (k : Constructors LB)
    (pathJoin : String → String → String) (cfg : Config) :
    (∀ algorithm : String,
        algorithm ∉ ["round-robin", "round_robin", "ketama", "consul",
          "weighted-round-robin", "weighted_round_robin"] →
        NewLoadBalancer k pathJoin algorithm cfg =
          (none, some ("unknown load balancer algorithm: " ++ algorithm))) ∧
      (∀ algorithm : String,
        algorithm ∈ ["round-robin", "round_robin", "ketama",
          "weighted-round-robin", "weighted_round_robin"] →
        (NewLoadBalancer k pathJoin algorithm cfg).1.isSome = true ∧
          (NewLoadBalancer k pathJoin algorithm cfg).2 = none) := by
  constructor
  · intro algorithm h
    simp only [List.mem_cons, List.mem_singleton, List.not_mem_nil, or_false, not_or] at h
    obtain ⟨h1, h2, h3, h4, h5, h6⟩ := h
    simp [NewLoadBalancer, h1, h2, h3, h4, h5, h6]
  · intro algorithm h
    simp only [List.mem_cons, List.mem_singleton, List.not_mem_nil, or_false] at h
    rcases h with h | h | h | h | h <;> subst h <;> simp [NewLoadBalancer]


/-- C1 at a concrete input: `least-conn` is not a recognised algorithm. -/
theorem NewLoadBalancer_contract_witness :
    NewLoadBalancer demoConstructors (fun a b => a ++ b) "least-conn" exactOnlyConfig =
      (none, some "unknown load balancer algorithm: least-conn") :=
  (NewLoadBalancer_contract demoConstructors (fun a b => a ++ b) exactOnlyConfig).1
    "least-conn" (by decide)

/-! ### The body captured by the cache middleware -/

theorem capture_body (calls : List WriterCall) : ∀ w : responseWriter,
    (calls.foldl responseWriter.call w).body =
      if writtenSlices calls = [] then w.body
      else some (w.body.getD [] ++ (writtenSlices calls).flatten) := by
  induction calls with
  | nil => intro w; simp [writtenSlices]
  | cons call rest ih =>
    intro w
    cases call with
    | Write b =>
      rw [List.foldl_cons, ih]
      cases hb : w.body <;>
        by_cases hrest : writtenSlices rest = [] <;>
        simp [writtenSlices, responseWriter.call, responseWriter.Write, hb, hrest]
    | promoted f =>
      rw [List.foldl_cons, ih]
      simp [writtenSlices, responseWriter.call]

/-- On the capture branch (caching enabled, a rule for the request's method `GET`, no usable
cache hit, request count at or above the threshold) the middleware runs the capture code. -/
theorem CacheMiddleware_capture (env : CacheEnv) (method : String) (inner : GinWriter)
    (downstream : List WriterCall) (rule : CacheRule) (henabled : env.Enabled = true)
    (hrule : env.rule = some rule) (hmethod : rule.Method = method) (hget : method = "GET")
    (hmiss : env.cached.bind env.unmarshal = none) (hcount : rule.Threshold ≤ env.count) :
    CacheMiddleware env method inner downstream = captureResponse inner downstream := by
  have hlt : ¬ env.count < rule.Threshold := by omega
  simp [CacheMiddleware, henabled, hrule, hmethod, hget, hmiss, hlt]

/-- Where the capture does what it is meant to do: when the response status is 200 and `Write`
was called at least once, the body of the cached entry is the concatenation, in order, of the
slices written. -/
theorem captured_body_of_writes (inner : GinWriter) (downstream : List WriterCall)
    (entry : CachedResponse) (hentry : (captureResponse inner downstream).entry = some entry)
    (hwritten : writtenSlices downstream ≠ []) :
    entry.Body = (writtenSlices downstream).flatten := by
  unfold captureResponse at hentry
  simp only [] at hentry
  split_ifs at hentry with hstatus
  simp only [Option.some.injEq] at hentry
  rw [← hentry]
  simp [capture_body, hwritten, bufferString]

/-- C10 fails on the code when nothing is written: on the capture branch, for a response with
status 200 on which `Write` is never called, `body` is still the nil pointer and the body of
the cached entry is the text `<nil>`, not the empty string. -/
theorem captured_body_nothing_written :
    (CacheMiddleware captureEnv "GET" newWriter []).entry =
        some ⟨200, [], [60, 110, 105, 108, 62]⟩ ∧
      (CacheMiddleware captureEnv "GET" newWriter
          [WriterCall.promoted fun w => { w with status := 200 }]).entry =
        some ⟨200, [], [60, 110, 105, 108, 62]⟩ ∧
      (CacheMiddleware captureEnv "GET" newWriter [WriterCall.Write []]).entry =
        some ⟨200, [], []⟩ := by
  decide

end MiniGateway
